import Mathlib

/-!
Verification of the category-label substitution engine of
`alex/components/slu/base.py` (class `CategoryLabelDatabase` and class
`SLUPreprocessing`).

The embedding is a shallow one:

* Utterances are token lists (`List String`).  The `Utterance` /
  `AbstractedUtterance` classes themselves live outside the verified sources,
  so their four required capabilities are modelled from the spec (section 6):
  a token-subsequence containment test (`containsPhrase`), a
  first-occurrence token-subsequence replace (`replaceFirst`), a relabelling
  operation with the same replacement semantics (`phrase2category_label`
  below is the same `replaceFirst`), and deep copy (the embedding is
  functional, a copy is the value itself).  The in-place `lower` capability
  of the normaliser is modelled by returning the caller's object state
  explicitly.
* Python 2 dictionaries are modelled as insertion-ordered association lists;
  `dict` assignment is `updateAssoc` (overwrite or append) and iteration is
  list order.
* The stable sorts (`list.sort(key=len, reverse=True)` and
  `sorted(..., key=lambda item: -len(item[0]))`) are modelled by a stable
  insertion sort by descending length, `sortLenDesc`.
* Fallible paths (the scan's `assert`, the confusion-network `try/except`,
  the dynamic typing of `normalise_database`) return `Except PyExc`.
-/

/-- Python exception values that the embedded code can raise. -/
inductive PyExc where
  | sluException (msg : String)
  | typeError (msg : String)
  | attributeError (msg : String)
  | notImplementedError
  | assertionError
  deriving DecidableEq

/-- Python 2 `str.upper()` (character-wise upper-casing), used for
`name.upper()` on slot names. -/
def upperStr (s : String) : String :=
  String.mk (s.data.map Char.toUpper)

/-- Python 2 `str.lower()` (character-wise lower-casing). -/
def lowerStr (s : String) : String :=
  String.mk (s.data.map Char.toLower)

/-- Helper of `splitWords`: accumulate a word while scanning characters. -/
def wordsAux : List Char → List Char → List String
  | [], acc => if acc.isEmpty then [] else [String.mk acc.reverse]
  | c :: cs, acc =>
    if c.isWhitespace then
      if acc.isEmpty then wordsAux cs [] else String.mk acc.reverse :: wordsAux cs []
    else wordsAux cs (c :: acc)

/-- Python 2 `str.split()` with no argument: split on whitespace runs,
dropping empty words.  Used by `normalise_database` to tokenise each
surface phrase (`base.py` line 87). -/
def splitWords (s : String) : List String :=
  wordsAux s.data []

/-- Association-list lookup, modelling Python dict lookup `d[k]` for the
insertion-ordered dictionaries of the embedding. -/
def lookupAssoc {β : Type} : List (String × β) → String → Option β
  | [], _ => none
  | (k', v) :: rest, k => if k' = k then some v else lookupAssoc rest k

/-- Association-list store, modelling Python dict assignment `d[k] = v`:
overwrite the existing binding in place, or append a new one. -/
def updateAssoc {β : Type} : List (String × β) → String → β → List (String × β)
  | [], k, v => [(k, v)]
  | (k', v') :: rest, k, v =>
    if k' = k then (k, v) :: rest else (k', v') :: updateAssoc rest k v

/-- Stable insertion (after all entries of greater-or-equal key) used by
`sortLenDesc`. -/
def insLenDesc {α : Type} (len : α → Nat) (x : α) : List α → List α
  | [] => [x]
  | y :: ys => if len x ≤ len y then y :: insLenDesc len x ys else x :: y :: ys

/-- Stable sort by descending `len`, modelling CPython's stable
`list.sort(key=len, reverse=True)` / `sorted(key=lambda item: -len(...))`:
entries with equal length keep their original relative order. -/
def sortLenDesc {α : Type} (len : α → Nat) (l : List α) : List α :=
  l.foldl (fun acc x => insLenDesc len x acc) []

/-- A database source: the two-level mapping
`{slot name → {value → [surface phrase string, ...]}}` (spec section 6),
as an insertion-ordered association list. -/
abbrev DbSource := List (String × List (String × List String))

/-- A normalised database: every surface phrase split into a token
sequence. -/
abbrev NormDb := List (String × List (String × List (List String)))

/-- `CategoryLabelDatabase.normalise_database` (base.py lines 79-89):
split every surface phrase of the two-level mapping into words. -/
def normalise_database (db : DbSource) : NormDb :=
  db.map (fun nv => (nv.1, nv.2.map (fun vp => (vp.1, vp.2.map splitWords))))

/-- The synonym-record list: `(form, value, slot name)` triples. -/
abbrev SVC := List (List String × String × String)

/-- The triples `(form, value, name)` appended by
`gen_synonym_value_category`'s triple loop (base.py lines 92-95), in
iteration order. -/
def dbTriples (db : NormDb) : SVC :=
  db.flatMap (fun nv => nv.2.flatMap (fun vp => vp.2.map (fun f => (f, vp.1, nv.1))))

/-- The state of a `CategoryLabelDatabase` object: the normalised
`database` mapping and the `synonym_value_category` list.  The two lazily
cached indices are cleared on every `load` (base.py lines 76-77), so they
are embedded as functions of this state (`form_val_upname`,
`form_upnames_vals` below). -/
structure CategoryLabelDatabase where
  database : NormDb
  synonym_value_category : SVC
  deriving DecidableEq

/-- A freshly constructed database (`__init__` with no file). -/
def CategoryLabelDatabase.empty : CategoryLabelDatabase := ⟨[], []⟩

/-- `CategoryLabelDatabase.gen_synonym_value_category` (base.py lines
91-99): append the triples of the current `database` to the existing
`synonym_value_category` list (there is no reset), then stable-sort the
whole list from most words to fewest. -/
def gen_synonym_value_category (st : CategoryLabelDatabase) : CategoryLabelDatabase :=
  let sorted := sortLenDesc (fun svc => svc.1.length)
    (st.synonym_value_category ++ dbTriples st.database)
  { st with synonym_value_category := sorted }

/-- `CategoryLabelDatabase.load` (base.py lines 65-77) on a well-formed
source: store the new `database`, normalise it, regenerate
`synonym_value_category`, and clear both derived-index caches (cache
clearing is represented by the indices being recomputed from the state). -/
def CategoryLabelDatabase.load (st : CategoryLabelDatabase) (src : DbSource) :
    CategoryLabelDatabase :=
  gen_synonym_value_category { st with database := normalise_database src }

/-- The `form_val_upname` derived index (base.py lines 37-43): the list of
`(form, value, name.upper())` triples. -/
def form_val_upname (st : CategoryLabelDatabase) : List (List String × String × String) :=
  st.synonym_value_category.map (fun t => (t.1, t.2.1, upperStr t.2.2))

/-- The inner `{name.upper(): [values]}` dictionary of one grouped-index
entry. -/
abbrev UpnamesVals := List (String × List String)

/-- `upnames_vals4form[form][upname].append(val)` on one inner dictionary. -/
def appendVal : UpnamesVals → String → String → UpnamesVals
  | [], up, v => [(up, [v])]
  | (u, vs) :: r, up, v =>
    if u = up then (u, vs ++ [v]) :: r else (u, vs) :: appendVal r up v

/-- One step of the grouping loop of `form_upnames_vals` (base.py lines
55-57): insert the triple `(form, val, upname)` into the
`surface → category → [values]` mapping. -/
def addGroup : List (List String × UpnamesVals) → List String × String × String →
    List (List String × UpnamesVals)
  | [], t => [(t.1, [(t.2.2, [t.2.1])])]
  | (f, uv) :: r, t =>
    if f = t.1 then (f, appendVal uv t.2.2 t.2.1) :: r else (f, uv) :: addGroup r t

/-- The `form_upnames_vals` derived grouped index (base.py lines 45-63):
group the `form_val_upname` triples by surface form, then stable-sort the
groups by descending surface-form length. -/
def form_upnames_vals (st : CategoryLabelDatabase) : List (List String × UpnamesVals) :=
  sortLenDesc (fun e => e.1.length) ((form_val_upname st).foldl addGroup [])

/-! ### Utterance capabilities

Modelled from the spec: the `Utterance` / `AbstractedUtterance` classes are
not part of the verified sources; section 6 of the spec requires a
token-sequence containment test, a token-sequence replace of the
first/only occurrence per hypothesis, a relabelling operation with the
same replacement semantics, and deep copy. -/

/-- Modelled from the spec: token-sequence prefix test used by the
containment and replace capabilities. -/
def isPrefixTok : List String → List String → Bool
  | [], _ => true
  | _ :: _, [] => false
  | x :: xs, y :: ys => x = y && isPrefixTok xs ys

/-- Modelled from the spec: the containment capability
`surface in utterance` — does the token sequence `f` occur contiguously in
`u`? -/
def containsPhrase : List String → List String → Bool
  | [], f => f.isEmpty
  | x :: t, f => isPrefixTok f (x :: t) || containsPhrase t f

/-- Modelled from the spec: the replace capability
`utterance.replace(f, r)` — replace the first occurrence of the token
sequence `f` by `r` (spec section 6: "first/only occurrence per
hypothesis"); an utterance without an occurrence is returned unchanged.
The relabelling capability `phrase2category_label` has the same
replacement semantics (its additional abstraction mark carries no token
content). -/
def replaceFirst : List String → List String → List String → List String
  | [], f, r => if f.isEmpty then r else []
  | x :: t, f, r =>
    if isPrefixTok f (x :: t) then r ++ (x :: t).drop f.length
    else x :: replaceFirst t f r

/-- The substitution record `valform_for_cl`: category label ↦
(slot value, original surface form). -/
abbrev Record := List (String × (String × List String))

/-! ### SLUPreprocessing -/

/-- The default `text_normalization_mapping` (base.py lines 131-138). -/
def text_normalization_mapping : List (List String × List String) :=
  [(["erm"], []), (["uhm"], []), (["um"], []), (["i'm"], ["i", "am"]),
   (["(sil)"], []), (["(%hesitation)"], []), (["(hesitation)"], [])]

/-- `SLUPreprocessing.text_normalisation` (base.py lines 141-151).  The
first component is the returned (normalised) utterance; the second is the
state of the caller's utterance object after the call: `utterance.lower()`
is invoked on the input itself with its result discarded, i.e. the input
object is lower-cased in place (modelled from the spec's lower-casing
capability), while each subsequent `replace` rebinds the local variable to
a fresh object. -/
def text_normalisation (utterance : List String) : List String × List String :=
  let lowered := utterance.map lowerStr
  (text_normalization_mapping.foldl (fun u m => replaceFirst u m.1 m.2) lowered,
   lowered)

/-- The scan state of `values2category_labels_in_utterance`
(base.py lines 188-199): the working copy of the utterance, the per-slot
`category_label_counter`, the substitution record `valform_for_cl`, and
`substituted_len`. -/
structure FwdState where
  utt : List String
  counter : List (String × Nat)
  valform : Record
  subLen : Nat
  deriving DecidableEq

/-- One match of the forward scan (base.py lines 220-252, the
`all_options=False` branch): add the surface length to `substituted_len`,
pick the first `(slot.upper(), values)` entry of the group and its first
value, synthesise the category label `'{cat}'.format(cat=slot_upper)`
(the instance index is formatted nowhere — the label is the bare
upper-cased slot name), bump the counter, record
`valform_for_cl[label] = (value, surface)`, and rewrite
`surface → (value,) → (label,)` with two first-occurrence replacements.
A group is never empty by construction of `form_upnames_vals`; the `[]`
branch below is unreachable. -/
def fwdProcess (st : FwdState) (surface : List String) (uv : UpnamesVals) : FwdState :=
  let sl := st.subLen + surface.length
  match uv with
  | [] => { st with subLen := sl }
  | (up, vs) :: _ =>
    let v := vs.headD ""
    let cl := up
    { utt := replaceFirst (replaceFirst st.utt surface [v]) [v] [cl]
      counter := updateAssoc st.counter up ((lookupAssoc st.counter up).getD 0 + 1)
      valform := updateAssoc st.valform cl (v, surface)
      subLen := sl }

/-- The iteration of the forward scan over the grouped index (base.py
lines 202-257): skip absent surfaces; after a match, if
`substituted_len >= utt_len` then `assert substituted_len == utt_len` and
break (a failing assert is the `assertionError` exception). -/
def valsScan (n : Nat) : List (List String × UpnamesVals) → FwdState →
    Except PyExc FwdState
  | [], st => .ok st
  | (surface, uv) :: rest, st =>
    if containsPhrase st.utt surface then
      let st' := fwdProcess st surface uv
      if n ≤ st'.subLen then
        if st'.subLen = n then .ok st' else .error .assertionError
      else valsScan n rest st'
    else valsScan n rest st

/-- `SLUPreprocessing.values2category_labels_in_utterance` (base.py lines
166-282, `all_options=False`): scan the grouped index over a copy of the
utterance (`AbstractedUtterance.from_utterance`, modelled from the spec as
the copy capability) and return the rewritten utterance together with the
substitution record. -/
def values2category_labels_in_utterance (cldb : CategoryLabelDatabase)
    (utterance : List String) : Except PyExc (List String × Record) :=
  (valsScan utterance.length (form_upnames_vals cldb) ⟨utterance, [], [], 0⟩).map
    (fun st => (st.utt, st.valform))

/-- The scan state of `values2category_labels_in_uttnblist` (base.py lines
298-307); hypotheses are `(score, utterance)` pairs with the score carried
through untouched. -/
structure NblState (α : Type) where
  nbl : List (α × List String)
  counter : List (String × Nat)
  valform : Record
  subLen : Nat

/-- One match of the n-best-list forward scan (base.py lines 312-334):
`substituted_len += len(surface) * len(hyps_with_surface)`, the category
label is `'{cat}-{idx}'.format(...)` — the upper-cased slot name with the
current per-slot counter appended — and every hypothesis containing the
surface is rewritten `surface → (value,) → (label,)`. -/
def nblProcess {α : Type} (st : NblState α) (surface : List String)
    (uv : UpnamesVals) : NblState α :=
  let cnt := (st.nbl.filter (fun h => containsPhrase h.2 surface)).length
  let sl := st.subLen + surface.length * cnt
  match uv with
  | [] => { st with subLen := sl }
  | (up, vs) :: _ =>
    let v := vs.headD ""
    let cl := up ++ "-" ++ toString ((lookupAssoc st.counter up).getD 0)
    { nbl := st.nbl.map (fun h =>
        if containsPhrase h.2 surface then
          (h.1, replaceFirst (replaceFirst h.2 surface [v]) [v] [cl])
        else h)
      counter := updateAssoc st.counter up ((lookupAssoc st.counter up).getD 0 + 1)
      valform := updateAssoc st.valform cl (v, surface)
      subLen := sl }

/-- The n-best-list scan loop (base.py lines 308-339), with the same
early-stop check and assert against the total token count. -/
def nblScan {α : Type} (n : Nat) : List (List String × UpnamesVals) → NblState α →
    Except PyExc (NblState α)
  | [], st => .ok st
  | (surface, uv) :: rest, st =>
    if st.nbl.any (fun h => containsPhrase h.2 surface) then
      let st' := nblProcess st surface uv
      if n ≤ st'.subLen then
        if st'.subLen = n then .ok st' else .error .assertionError
      else nblScan n rest st'
    else nblScan n rest st

/-- `SLUPreprocessing.values2category_labels_in_uttnblist` (base.py lines
284-341): deep-copy the n-best list (functional: the value itself), take
`tot_len` as the sum of hypothesis lengths, scan the grouped index, and
return the rewritten list with the substitution record. -/
def values2category_labels_in_uttnblist {α : Type} (cldb : CategoryLabelDatabase)
    (utt_nblist : List (α × List String)) :
    Except PyExc (List (α × List String) × Record) :=
  (nblScan ((utt_nblist.map (fun h => h.2.length)).sum) (form_upnames_vals cldb)
      ⟨utt_nblist, [], [], 0⟩).map (fun st => (st.nbl, st.valform))

/-! ### Confusion networks

Modelled from the spec: `UtteranceConfusionNetwork` is not part of the
verified sources; the spec describes it as a graph of competing token arcs
and requires the same containment/replace/relabel capabilities, with the
rewrite guarded by an exception handler in the engine (base.py lines
381-386), i.e. the rewrite operation is fallible.  The model is a sequence
of arc slots, each holding alternative tokens; single-token phrases are
rewritten token-wise on every arc, multi-token phrases are the fallible
(unimplemented) case. -/

/-- A confusion network: consecutive arc slots of alternative tokens. -/
abbrev Confnet := List (List String)

/-- Do consecutive arcs starting here contain the respective tokens of the
phrase? -/
def arcsMatch : Confnet → List String → Bool
  | _, [] => true
  | [], _ :: _ => false
  | arc :: cs, t :: ts => arc.contains t && arcsMatch cs ts

/-- Modelled from the spec: the containment capability
`surface in confnet`. -/
def confnetContains : Confnet → List String → Bool
  | [], f => f.isEmpty
  | arc :: cs, f => arcsMatch (arc :: cs) f || confnetContains cs f

/-- Modelled from the spec: the fallible confusion-network rewrite
capability (`replace` / `phrase2category_label` over arcs).  A
single-token phrase is rewritten on every arc containing it; a multi-token
phrase raises. -/
def confnetReplace (c : Confnet) (f r : List String) : Except PyExc Confnet :=
  match f, r with
  | [t], [rt] => .ok (c.map (fun arc => arc.map (fun w => if w = t then rt else w)))
  | _, _ => .error .notImplementedError

/-- Python 2 `"(EE) " + ex` with `ex` an exception object: string and
exception cannot be concatenated, so the expression itself raises
`TypeError` (base.py line 386). -/
def strPlusExc (_s : String) (_e : PyExc) : Except PyExc String :=
  .error (.typeError "cannot concatenate str and exception objects")

/-- The confusion-network scan loop (base.py lines 363-388): for every
present surface pick the first slot/value of the group, record
`valform_for_cl[slot_upper] = (value, surface)` (the label is the bare
upper-cased slot name, assigned before the guarded rewrite), then attempt
the two-step rewrite inside `try`; on an exception the handler evaluates
`print "(EE) " + ex`, whose concatenation itself raises. -/
def confnetScan : List (List String × UpnamesVals) → Confnet → Record →
    Except PyExc (Confnet × Record)
  | [], c, valform => .ok (c, valform)
  | (surface, uv) :: rest, c, valform =>
    if confnetContains c surface then
      match uv with
      | [] => confnetScan rest c valform
      | (up, vs) :: _ =>
        let v := vs.headD ""
        let valform' := updateAssoc valform up (v, surface)
        match (confnetReplace c surface [v]).bind (fun c1 => confnetReplace c1 [v] [up]) with
        | .ok c2 => confnetScan rest c2 valform'
        | .error e =>
          match strPlusExc "(EE) " e with
          | .error e' => .error e'
          | .ok _ => confnetScan rest c valform'
    else confnetScan rest c valform

/-- `SLUPreprocessing.values2category_labels_in_confnet` (base.py lines
344-388). -/
def values2category_labels_in_confnet (cldb : CategoryLabelDatabase)
    (confnet : Confnet) : Except PyExc (Confnet × Record) :=
  confnetScan (form_upnames_vals cldb) confnet []

/-! ### Dialogue acts -/

/-- A dialogue-act item `(slot name, value)`.  The `DialogueActItem` class
is not part of the verified sources; modelled from the spec: a semantic
item is a (slot, value) pair and `value2category_label` replaces the value
by the category label. -/
structure DialogueActItem where
  name : String
  value : String
  deriving DecidableEq

/-- Modelled from the spec: `dai.value2category_label(cl)` replaces the
item's value by the category label. -/
def DialogueActItem.value2category_label (dai : DialogueActItem) (cl : String) :
    DialogueActItem :=
  { dai with value := cl }

/-- The inverted mapping `cl_for_value` (base.py lines 423-424):
`{value: label}` built from the substitution record, later entries
overwriting earlier ones. -/
def cl_for_value (valform : Record) : List (String × String) :=
  valform.foldl (fun acc it => updateAssoc acc it.2.1 it.1) []

/-- The database triples matching a dialogue-act item (base.py lines
438-440): the `form_val_upname` triples whose value is the item's value
and whose upper-cased slot name is the item's upper-cased slot name. -/
def matching_triples (cldb : CategoryLabelDatabase) (dai : DialogueActItem) :
    List (List String × String × String) :=
  (form_val_upname cldb).filter
    (fun tup => tup.2.1 = dai.value && tup.2.2 = upperStr dai.name)

/-- The per-item substitution of `values2category_labels_in_da` (base.py
lines 430-443): replace the value by its label when the value appears in
the inverted record, otherwise fall back to a same-slot database lookup,
otherwise keep the item unchanged. -/
def daiSubst (cldb : CategoryLabelDatabase) (clv : List (String × String))
    (dai : DialogueActItem) : DialogueActItem :=
  match lookupAssoc clv dai.value with
  | some cl => dai.value2category_label cl
  | none =>
    match matching_triples cldb dai with
    | [] => dai
    | tup :: _ => dai.value2category_label tup.2.2

/-- `SLUPreprocessing.values2category_labels_in_da` (base.py lines
390-445), for an `Utterance` hypothesis: forward-substitute the utterance,
invert the record into `cl_for_value`, and rewrite every dialogue-act item
of a deep copy of the annotation. -/
def values2category_labels_in_da (cldb : CategoryLabelDatabase)
    (utt_hyp : List String) (da : List DialogueActItem) :
    Except PyExc (List String × List DialogueActItem × Record) :=
  (values2category_labels_in_utterance cldb utt_hyp).map (fun p =>
    let clv := cl_for_value p.2
    (p.1, da.map (daiSubst cldb clv), p.2))

/-! ### Backward substitution -/

/-- `SLUPreprocessing.category_labels2values_in_utterance` (base.py lines
447-459): deep-copy, then for each record entry replace the category label
(as a one-token phrase) by the recorded original surface tokens
`category_labels[cl][1]`. -/
def category_labels2values_in_utterance (utterance : List String)
    (category_labels : Record) : List String :=
  category_labels.foldl (fun u e => replaceFirst u [e.1] e.2.2) utterance

/-- `SLUPreprocessing.category_labels2values_in_uttnblist` (base.py lines
461-474).  The loop `for utterance in nblist_cp` iterates the copied
n-best list, whose items are `(score, utterance)` pairs (the forward scan
of the same file indexes hypotheses as `hyp[1]` and stores back into
`nblist_cp[hyp_idx][1]`).  With a nonempty record the body therefore
invokes `phrase2category_label` on a pair, which has no such attribute;
with an empty record (or an empty list) the loop body never runs and the
copied list is returned unchanged.  Either way no label is ever restored. -/
def category_labels2values_in_uttnblist {α : Type} (utt_nblist : List (α × List String))
    (category_labels : Record) : Except PyExc (List (α × List String)) :=
  match utt_nblist, category_labels with
  | _ :: _, _ :: _ => .error (.attributeError "phrase2category_label")
  | _, _ => .ok utt_nblist

/-! ### Dynamically typed `load` (for the malformed-source analysis)

`load_as_module` (outside the verified sources) produces an arbitrary
Python value for the `database` attribute, or no such attribute at all.
`PyVal` models the value universe relevant to the two-level mapping shape:
strings, lists and string-keyed dictionaries. -/

/-- A dynamic Python value. -/
inductive PyVal where
  | str (s : String)
  | list (xs : List PyVal)
  | dict (xs : List (String × PyVal))

/-- Python iteration `for x in v`: a dict yields its keys, a string its
characters (as one-character strings), a list its elements. -/
def pyIterVals : PyVal → List PyVal
  | .dict xs => xs.map (fun kv => .str kv.1)
  | .str s => s.data.map (fun c => .str (String.mk [c]))
  | .list xs => xs

/-- Python indexing `v[k]`: dict lookup by a string key; indexing a string
or a list by one of the iterated values raises `TypeError`, as does a dict
looked up with an unhashable key. -/
def pyGetItem : PyVal → PyVal → Except PyExc PyVal
  | .dict xs, .str k =>
    match lookupAssoc xs k with
    | some v => .ok v
    | none => .error (.typeError "KeyError")
  | .dict _, _ => .error (.typeError "unhashable type")
  | .str _, _ => .error (.typeError "string indices must be integers")
  | .list _, _ => .error (.typeError "list indices must be integers")

/-- Python hashability of a candidate dict key in this value universe. -/
def pyHashable : PyVal → Bool
  | .str _ => true
  | _ => false

/-- Python `phrase.split()`: only strings have the attribute. -/
def pySplit : PyVal → Except PyExc PyVal
  | .str s => .ok (.list ((splitWords s).map .str))
  | _ => .error (.attributeError "split")

/-- Effectful map over a list, propagating the first exception
(Python's `map` evaluating its function left to right). -/
def mapExcept {γ δ : Type} (f : γ → Except PyExc δ) : List γ → Except PyExc (List δ)
  | [] => .ok []
  | x :: xs =>
    Except.bind (f x) (fun y =>
      Except.bind (mapExcept f xs) (fun ys => .ok (y :: ys)))

/-- `map(lambda phrase: tuple(phrase.split()), X)` of base.py lines 86-88:
iterate `X` and split each element. -/
def tokenisePhrases (x : PyVal) : Except PyExc PyVal :=
  Except.bind (mapExcept pySplit (pyIterVals x)) (fun toks => .ok (.list toks))

/-- The body of `normalise_database` for one slot name (base.py lines
84-88): `new_db[name] = dict()` (the name must be hashable), then for each
iterated value of `database[name]`, store the tokenised phrase list under
that value (`database[name][value]` raises for non-dict containers and
unhashable keys). -/
def normaliseSlot (db : PyVal) (name : PyVal) :
    Except PyExc (PyVal × List (PyVal × PyVal)) :=
  Except.bind (if pyHashable name then Except.ok () else
      Except.error (.typeError "unhashable type")) (fun _ =>
    Except.bind (pyGetItem db name) (fun inner =>
      Except.bind (mapExcept (fun value =>
          Except.bind (pyGetItem inner value) (fun phrases =>
            Except.bind (tokenisePhrases phrases) (fun toks =>
              Except.ok (value, toks)))) (pyIterVals inner)) (fun pairs =>
        Except.ok (name, pairs))))

/-- `CategoryLabelDatabase.normalise_database` (base.py lines 79-89) over
a dynamic source value: the traversal succeeds exactly when every
operation it performs is supported, raising the corresponding dynamic
exception otherwise. -/
def normalise_database_py (db : PyVal) : Except PyExc (List (PyVal × List (PyVal × PyVal))) :=
  mapExcept (normaliseSlot db) (pyIterVals db)

/-- `CategoryLabelDatabase.load` (base.py lines 65-77) over the dynamic
`database` attribute of the loaded module: a module without the attribute
raises `SLUException` — the configuration error — and otherwise the source
is normalised (the subsequent `gen_synonym_value_category` only iterates
the already-normalised structure and raises nothing new). -/
def loadPy (db_mod_database : Option PyVal) :
    Except PyExc (List (PyVal × List (PyVal × PyVal))) :=
  match db_mod_database with
  | none => .error (.sluException
      "The category label database does not define the database object!")
  | some v => normalise_database_py v

/-- Is an exception the configuration error (`SLUException`)? -/
def PyExc.isConfigError : PyExc → Bool
  | .sluException _ => true
  | _ => false

/-- The required two-level mapping shape of a database source (spec
sections 4.1 and 6): a dictionary mapping slot names to dictionaries
mapping values to lists of surface phrase strings.  This definition
follows the spec's words; it is the shape the claim quantifies over. -/
def hasRequiredShape : PyVal → Bool
  | .dict slots => slots.all (fun nv =>
      match nv.2 with
      | .dict vals => vals.all (fun vp =>
          match vp.2 with
          | .list phrases => phrases.all (fun p =>
              match p with
              | .str _ => true
              | _ => false)
          | _ => false)
      | _ => false)
  | _ => false

/-! ### Concrete databases and inputs used in the analysis -/

/-- A database built by one `load` on a fresh object. -/
def cldbOf (src : DbSource) : CategoryLabelDatabase :=
  CategoryLabelDatabase.empty.load src

/-- Database `{'city': {'KV': ['Karlovy Vary', 'Vary']}}`: the value `KV`
has both the surface form "Karlovy Vary" and the surface form "Vary". -/
def cldbKV : CategoryLabelDatabase :=
  cldbOf [("city", [("KV", ["Karlovy Vary", "Vary"])])]

/-- An utterance containing "Karlovy Vary" twice. -/
def uttKV2 : List String := ["Karlovy", "Vary", "Karlovy", "Vary"]

/-- Database `{'city': {'Prague': ['Praha']}}`: one slot, one value, one
surface form. -/
def cldbPraha : CategoryLabelDatabase :=
  cldbOf [("city", [("Prague", ["Praha"])])]

/-- Database `{'f1': {'x': ['a b c']}, 'g': {'y': ['F1 d']}}`: replacing
the three-token surface "a b c" by value `x` and then category label `F1`
creates a new occurrence of the two-token surface "F1 d". -/
def cldbAssert : CategoryLabelDatabase :=
  cldbOf [("f1", [("x", ["a b c"])]), ("g", [("y", ["F1 d"])])]

/-- Database `{'city': {'Karlovy Vary': ['Karlovy Vary']}}` with a
two-token surface form, for the confusion-network scan. -/
def cldbConf : CategoryLabelDatabase :=
  cldbOf [("city", [("Karlovy Vary", ["Karlovy Vary"])])]

/-- The first source loaded in the reload scenario. -/
def srcCity : DbSource := [("city", [("Prague", ["Praha"])])]

/-- The second source loaded in the reload scenario. -/
def srcName : DbSource := [("name", [("Pepa", ["Pepa"])])]

/-- A malformed dynamic source: the phrase list of value `Prague` is the
string `"Praha"` instead of a list of phrase strings. -/
def srcStrPhrases : PyVal := .dict [("city", .dict [("Prague", .str "Praha")])]

/-- A malformed dynamic source: the value level is the string `"Prague"`
instead of a dictionary. -/
def srcStrSlot : PyVal := .dict [("city", .str "Prague")]

/-! ### Helper lemmas -/

theorem isPrefixTok_iff (f u : List String) :
    isPrefixTok f u = true ↔ ∃ b, u = f ++ b := by
  induction f generalizing u with
  | nil => simp [isPrefixTok]
  | cons x xs ih =>
    cases u with
    | nil => simp [isPrefixTok]
    | cons y ys =>
      simp only [isPrefixTok, Bool.and_eq_true, decide_eq_true_eq, ih, List.cons_append,
        List.cons.injEq]
      constructor
      · rintro ⟨rfl, b, rfl⟩
        exact ⟨b, rfl, rfl⟩
      · rintro ⟨b, rfl, rfl⟩
        exact ⟨rfl, b, rfl⟩

theorem containsPhrase_iff (u f : List String) :
    containsPhrase u f = true ↔ ∃ a b, u = a ++ f ++ b := by
  induction u with
  | nil =>
    simp only [containsPhrase, List.isEmpty_iff]
    constructor
    · rintro rfl
      exact ⟨[], [], rfl⟩
    · rintro ⟨a, b, h⟩
      rcases List.append_eq_nil.mp h.symm with ⟨h1, h2⟩
      exact (List.append_eq_nil.mp h1).2
  | cons x t ih =>
    simp only [containsPhrase, Bool.or_eq_true, isPrefixTok_iff, ih]
    constructor
    · rintro (⟨b, hb⟩ | ⟨a, b, rfl⟩)
      · exact ⟨[], b, by simpa using hb⟩
      · exact ⟨x :: a, b, rfl⟩
    · rintro ⟨a, b, h⟩
      cases a with
      | nil => exact Or.inl ⟨b, by simpa using h⟩
      | cons y a' =>
        simp only [List.cons_append, List.cons.injEq] at h
        exact Or.inr ⟨a', b, h.2⟩

theorem replaceFirst_of_not_contains {u f : List String} (r : List String)
    (h : containsPhrase u f = false) : replaceFirst u f r = u := by
  induction u with
  | nil =>
    simp only [containsPhrase, List.isEmpty_iff] at h
    simp [replaceFirst, List.isEmpty_iff, h]
  | cons x t ih =>
    simp only [containsPhrase, Bool.or_eq_false_iff] at h
    simp [replaceFirst, h.1, ih h.2]

theorem replaceFirst_spec {u f : List String} (r : List String)
    (h : containsPhrase u f = true) :
    ∃ a b, u = a ++ f ++ b ∧ replaceFirst u f r = a ++ r ++ b := by
  induction u with
  | nil =>
    simp only [containsPhrase, List.isEmpty_iff] at h
    subst h
    exact ⟨[], [], rfl, by simp [replaceFirst]⟩
  | cons x t ih =>
    by_cases hp : isPrefixTok f (x :: t) = true
    · rcases (isPrefixTok_iff f (x :: t)).mp hp with ⟨b, hb⟩
      refine ⟨[], b, by simpa using hb, ?_⟩
      simp only [replaceFirst, hp, if_true, List.nil_append]
      rw [hb, List.drop_left]
    · simp only [containsPhrase, Bool.or_eq_true] at h
      rcases h with h | h
      · exact absurd h hp
      · rcases ih h with ⟨a, b, hu, hr⟩
        refine ⟨x :: a, b, by simp [hu], ?_⟩
        simp [replaceFirst, hp, hr]

theorem replaceFirst_cons (x : String) (t f r : List String) :
    replaceFirst (x :: t) f r =
      if isPrefixTok f (x :: t) = true then r ++ (x :: t).drop f.length
      else x :: replaceFirst t f r := rfl

theorem replaceFirst_middle {a : List String} (b r : List String) {x : String}
    (hx : x ∉ a) : replaceFirst (a ++ x :: b) [x] r = a ++ r ++ b := by
  induction a with
  | nil => simp [replaceFirst, isPrefixTok]
  | cons y a' ih =>
    have hxy : ¬(x = y) := fun h => hx (h ▸ List.mem_cons_self y a')
    have hpre : isPrefixTok [x] (y :: (a' ++ x :: b)) = false := by
      simp [isPrefixTok, hxy]
    rw [List.cons_append, replaceFirst_cons, hpre]
    rw [ih (fun h => hx (List.mem_cons_of_mem y h))]
    simp

theorem pfxTok_middle {f a b : List String} {x : String}
    (h : isPrefixTok f (a ++ x :: b) = true) (hx : x ∉ f) :
    isPrefixTok f a = true := by
  induction f generalizing a with
  | nil => simp [isPrefixTok]
  | cons t ts ih =>
    cases a with
    | nil =>
      simp only [List.nil_append, isPrefixTok, Bool.and_eq_true, decide_eq_true_eq] at h
      exact absurd (h.1 ▸ List.mem_cons_self t ts) hx
    | cons y a' =>
      simp only [List.cons_append, isPrefixTok, Bool.and_eq_true] at h ⊢
      exact ⟨h.1, ih h.2 (fun hm => hx (List.mem_cons_of_mem t hm))⟩

theorem contains_cons {t f : List String} (y : String)
    (h : containsPhrase t f = true) : containsPhrase (y :: t) f = true := by
  simp [containsPhrase, h]

theorem contains_of_pfxTok {u f : List String} (h : isPrefixTok f u = true) :
    containsPhrase u f = true := by
  rcases (isPrefixTok_iff f u).mp h with ⟨b, rfl⟩
  exact (containsPhrase_iff _ _).mpr ⟨[], b, by simp⟩

theorem contains_middle {a b f : List String} {x : String}
    (h : containsPhrase (a ++ x :: b) f = true) (hx : x ∉ f) :
    containsPhrase a f = true ∨ containsPhrase b f = true := by
  induction a with
  | nil =>
    simp only [List.nil_append, containsPhrase, Bool.or_eq_true] at h
    rcases h with h | h
    · cases f with
      | nil => exact Or.inl rfl
      | cons t ts =>
        simp only [isPrefixTok, Bool.and_eq_true, decide_eq_true_eq] at h
        exact absurd (h.1 ▸ List.mem_cons_self t ts) hx
    · exact Or.inr h
  | cons y a' ih =>
    simp only [List.cons_append, containsPhrase, Bool.or_eq_true] at h
    rcases h with h | h
    · exact Or.inl (contains_of_pfxTok (pfxTok_middle (a := y :: a') h hx))
    · rcases ih h with h' | h'
      · exact Or.inl (contains_cons y h')
      · exact Or.inr h'

theorem contains_append_left {a f : List String} (c : List String)
    (h : containsPhrase a f = true) : containsPhrase (a ++ c) f = true := by
  rcases (containsPhrase_iff a f).mp h with ⟨p, q, rfl⟩
  exact (containsPhrase_iff _ _).mpr ⟨p, q ++ c, by simp⟩

theorem contains_append_right {b f : List String} (a : List String)
    (h : containsPhrase b f = true) : containsPhrase (a ++ b) f = true := by
  rcases (containsPhrase_iff b f).mp h with ⟨p, q, rfl⟩
  exact (containsPhrase_iff _ _).mpr ⟨a ++ p, q, by simp⟩

theorem contains_singleton {u : List String} {x : String} :
    containsPhrase u [x] = true ↔ x ∈ u := by
  rw [containsPhrase_iff]
  constructor
  · rintro ⟨a, b, rfl⟩
    simp
  · intro h
    rcases List.append_of_mem h with ⟨s, t, rfl⟩
    exact ⟨s, t, by simp⟩

theorem valsScan_skip {n : Nat} {surface : List String} {uv : UpnamesVals}
    {rest : List (List String × UpnamesVals)} {st : FwdState}
    (h : containsPhrase st.utt surface = false) :
    valsScan n ((surface, uv) :: rest) st = valsScan n rest st := by
  simp [valsScan, h]

theorem valsScan_skip_all {n : Nat} {l : List (List String × UpnamesVals)} {st : FwdState}
    (h : ∀ e ∈ l, containsPhrase st.utt e.1 = false) : valsScan n l st = .ok st := by
  induction l with
  | nil => rfl
  | cons e rest ih =>
    rw [show e = (e.1, e.2) from rfl, valsScan_skip (h e (List.mem_cons_self e rest))]
    exact ih (fun e' he' => h e' (List.mem_cons_of_mem e he'))

theorem valsScan_append_skip {n : Nat} {l₁ l₂ : List (List String × UpnamesVals)}
    {st : FwdState} (h : ∀ e ∈ l₁, containsPhrase st.utt e.1 = false) :
    valsScan n (l₁ ++ l₂) st = valsScan n l₂ st := by
  induction l₁ with
  | nil => rfl
  | cons e rest ih =>
    rw [List.cons_append, show e = (e.1, e.2) from rfl,
      valsScan_skip (h e (List.mem_cons_self e rest))]
    exact ih (fun e' he' => h e' (List.mem_cons_of_mem e he'))

theorem mem_insLenDesc {α : Type} {len : α → Nat} {x z : α} {l : List α} :
    z ∈ insLenDesc len x l ↔ z = x ∨ z ∈ l := by
  induction l with
  | nil => simp [insLenDesc]
  | cons y ys ih =>
    by_cases h : len x ≤ len y
    · simp only [insLenDesc, h, if_true, List.mem_cons, ih]
      tauto
    · simp only [insLenDesc, h, if_false, List.mem_cons]

theorem pairwise_insLenDesc {α : Type} {len : α → Nat} {x : α} {l : List α}
    (h : List.Pairwise (fun a b => len b ≤ len a) l) :
    List.Pairwise (fun a b => len b ≤ len a) (insLenDesc len x l) := by
  induction l with
  | nil => simp [insLenDesc]
  | cons y ys ih =>
    rcases List.pairwise_cons.mp h with ⟨hy, hys⟩
    by_cases hle : len x ≤ len y
    · simp only [insLenDesc, hle, if_true]
      refine List.pairwise_cons.mpr ⟨?_, ih hys⟩
      intro z hz
      rcases mem_insLenDesc.mp hz with rfl | hz
      · exact hle
      · exact hy z hz
    · simp only [insLenDesc, hle, if_false]
      refine List.pairwise_cons.mpr ⟨?_, h⟩
      intro z hz
      rcases List.mem_cons.mp hz with rfl | hz
      · exact Nat.le_of_lt (Nat.lt_of_not_le hle)
      · exact Nat.le_trans (hy z hz) (Nat.le_of_lt (Nat.lt_of_not_le hle))

theorem pairwise_foldl_insLenDesc {α : Type} {len : α → Nat} (l : List α) (acc : List α)
    (hacc : List.Pairwise (fun a b => len b ≤ len a) acc) :
    List.Pairwise (fun a b => len b ≤ len a)
      (l.foldl (fun acc x => insLenDesc len x acc) acc) := by
  induction l generalizing acc with
  | nil => exact hacc
  | cons x xs ih => exact ih _ (pairwise_insLenDesc hacc)

theorem pairwise_sortLenDesc {α : Type} (len : α → Nat) (l : List α) :
    List.Pairwise (fun a b => len b ≤ len a) (sortLenDesc len l) :=
  pairwise_foldl_insLenDesc l [] List.Pairwise.nil

theorem perm_insLenDesc {α : Type} (len : α → Nat) (x : α) (l : List α) :
    List.Perm (insLenDesc len x l) (x :: l) := by
  induction l with
  | nil => simp [insLenDesc]
  | cons y ys ih =>
    by_cases h : len x ≤ len y
    · simp only [insLenDesc, h, if_true]
      exact (ih.cons y).trans (List.Perm.swap x y ys)
    · simp [insLenDesc, h]

theorem perm_foldl_insLenDesc {α : Type} (len : α → Nat) (l : List α) (acc : List α) :
    List.Perm (l.foldl (fun acc x => insLenDesc len x acc) acc) (acc ++ l) := by
  induction l generalizing acc with
  | nil => simp
  | cons x xs ih =>
    refine (ih (insLenDesc len x acc)).trans ?_
    have h1 : List.Perm (insLenDesc len x acc ++ xs) ((x :: acc) ++ xs) :=
      (perm_insLenDesc len x acc).append_right xs
    exact h1.trans List.perm_middle.symm

theorem perm_sortLenDesc {α : Type} (len : α → Nat) (l : List α) :
    List.Perm (sortLenDesc len l) l := by
  simpa using perm_foldl_insLenDesc len l []

theorem addGroup_keys (acc : List (List String × UpnamesVals))
    (t : List String × String × String) :
    (addGroup acc t).map (fun e => e.1) =
      if t.1 ∈ acc.map (fun e => e.1) then acc.map (fun e => e.1)
      else acc.map (fun e => e.1) ++ [t.1] := by
  induction acc with
  | nil => simp [addGroup]
  | cons e r ih =>
    by_cases h : e.1 = t.1
    · rw [show e = (e.1, e.2) from rfl]
      simp [addGroup, h]
    · rw [show e = (e.1, e.2) from rfl]
      simp only [addGroup, h, if_false, List.map_cons, ih, List.mem_cons]
      have h4 : ¬(t.1 = e.1) := fun h3 => h h3.symm
      by_cases h2 : t.1 ∈ r.map (fun e => e.1)
      · simp [h2, h4]
      · simp [h2, h4]

theorem nodup_keys_foldl_addGroup (l : List (List String × String × String))
    (acc : List (List String × UpnamesVals))
    (hacc : (acc.map (fun e => e.1)).Nodup) :
    ((l.foldl addGroup acc).map (fun e => e.1)).Nodup := by
  induction l generalizing acc with
  | nil => exact hacc
  | cons t ts ih =>
    refine ih (addGroup acc t) ?_
    rw [addGroup_keys]
    by_cases h : t.1 ∈ acc.map (fun e => e.1)
    · simpa [h] using hacc
    · simp only [h, if_false]
      exact List.Nodup.append hacc (List.nodup_singleton _)
        (by simpa [List.disjoint_singleton] using h)

theorem form_upnames_vals_sorted (cldb : CategoryLabelDatabase) :
    List.Pairwise (fun a b => b.1.length ≤ a.1.length) (form_upnames_vals cldb) :=
  pairwise_sortLenDesc _ _

theorem form_upnames_vals_nodup_keys (cldb : CategoryLabelDatabase) :
    ((form_upnames_vals cldb).map (fun e => e.1)).Nodup := by
  have hperm : List.Perm (form_upnames_vals cldb)
      ((form_val_upname cldb).foldl addGroup []) :=
    perm_sortLenDesc _ _
  exact (hperm.map (fun e => e.1)).nodup_iff.mpr
    (nodup_keys_foldl_addGroup _ [] (by simp))

theorem mem_appendVal_keys {uv : UpnamesVals} {up v : String} {g : String × List String}
    (h : g ∈ appendVal uv up v) : g.1 = up ∨ ∃ g' ∈ uv, g.1 = g'.1 := by
  induction uv with
  | nil =>
    simp only [appendVal, List.mem_singleton] at h
    exact Or.inl (by rw [h])
  | cons e r ih =>
    by_cases he : e.1 = up
    · rw [show e = (e.1, e.2) from rfl] at h
      simp only [appendVal, he, if_true, List.mem_cons] at h
      rcases h with h | h
      · exact Or.inl (by rw [h])
      · exact Or.inr ⟨g, List.mem_cons_of_mem _ h, rfl⟩
    · rw [show e = (e.1, e.2) from rfl] at h
      simp only [appendVal, he, if_false, List.mem_cons] at h
      rcases h with h | h
      · exact Or.inr ⟨e, List.mem_cons_self _ _, by rw [h]⟩
      · rcases ih h with h' | ⟨g', hg', h'⟩
        · exact Or.inl h'
        · exact Or.inr ⟨g', List.mem_cons_of_mem _ hg', h'⟩

theorem addGroup_pred (P : String → Prop) {acc : List (List String × UpnamesVals)}
    {t : List String × String × String}
    (hacc : ∀ e ∈ acc, ∀ g ∈ e.2, P g.1) (ht : P t.2.2) :
    ∀ e ∈ addGroup acc t, ∀ g ∈ e.2, P g.1 := by
  induction acc with
  | nil =>
    intro e he g hg
    simp only [addGroup, List.mem_singleton] at he
    subst he
    simp only [List.mem_singleton] at hg
    subst hg
    exact ht
  | cons e' r ih =>
    intro e he g hg
    by_cases hf : e'.1 = t.1
    · rw [show e' = (e'.1, e'.2) from rfl] at he
      simp only [addGroup, hf, if_true, List.mem_cons] at he
      rcases he with rfl | he
      · rcases mem_appendVal_keys hg with h | ⟨g', hg', h⟩
        · exact h ▸ ht
        · exact h ▸ hacc e' (List.mem_cons_self _ _) g' hg'
      · exact hacc e (List.mem_cons_of_mem _ he) g hg
    · rw [show e' = (e'.1, e'.2) from rfl] at he
      simp only [addGroup, hf, if_false, List.mem_cons] at he
      rcases he with rfl | he
      · exact hacc e' (List.mem_cons_self _ _) g hg
      · exact ih (fun e'' he'' g' hg' => hacc e'' (List.mem_cons_of_mem _ he'') g' hg')
          e he g hg

theorem foldl_addGroup_pred (P : String → Prop)
    (l : List (List String × String × String)) (acc : List (List String × UpnamesVals))
    (hacc : ∀ e ∈ acc, ∀ g ∈ e.2, P g.1) (hl : ∀ t ∈ l, P t.2.2) :
    ∀ e ∈ l.foldl addGroup acc, ∀ g ∈ e.2, P g.1 := by
  induction l generalizing acc with
  | nil => exact hacc
  | cons t ts ih =>
    exact ih (addGroup acc t)
      (addGroup_pred P hacc (hl t (List.mem_cons_self _ _)))
      (fun t' ht' => hl t' (List.mem_cons_of_mem _ ht'))

/-- Every slot name in the grouped index is the upper-cased slot name of
some synonym record. -/
theorem form_upnames_vals_upnames (cldb : CategoryLabelDatabase) :
    ∀ e ∈ form_upnames_vals cldb, ∀ g ∈ e.2,
      ∃ t ∈ cldb.synonym_value_category, g.1 = upperStr t.2.2 := by
  intro e he g hg
  have he' : e ∈ (form_val_upname cldb).foldl addGroup [] :=
    (perm_sortLenDesc _ _).mem_iff.mp he
  refine foldl_addGroup_pred
    (fun up => ∃ t ∈ cldb.synonym_value_category, up = upperStr t.2.2)
    (form_val_upname cldb) [] (by simp) ?_ e he' g hg
  intro t ht
  simp only [form_val_upname, List.mem_map] at ht
  rcases ht with ⟨s, hs, rfl⟩
  exact ⟨s, hs, rfl⟩

theorem filter_eq_singleton {α : Type} {p : α → Bool} {l : List α} {x : α}
    (h : l.filter p = [x]) :
    ∃ l₁ l₂, l = l₁ ++ x :: l₂ ∧ (∀ y ∈ l₁, p y = false) ∧
      (∀ y ∈ l₂, p y = false) ∧ p x = true := by
  induction l with
  | nil => simp [List.filter] at h
  | cons y ys ih =>
    by_cases hy : p y = true
    · rw [List.filter_cons_of_pos hy] at h
      have hx : y = x := (List.cons_eq_cons.mp h).1
      have hnil : ys.filter p = [] := (List.cons_eq_cons.mp h).2
      refine ⟨[], ys, by simp [hx], by simp, ?_, hx ▸ hy⟩
      intro z hz
      have := List.filter_eq_nil_iff.mp hnil z hz
      exact Bool.not_eq_true _ ▸ eq_false_of_ne_true this
    · have hy' : p y = false := Bool.not_eq_true _ ▸ hy
      rw [List.filter_cons_of_neg (by simp [hy'])] at h
      rcases ih h with ⟨l₁, l₂, rfl, h₁, h₂, hx⟩
      exact ⟨y :: l₁, l₂, rfl, by
        intro z hz
        rcases List.mem_cons.mp hz with rfl | hz
        · exact hy'
        · exact h₁ z hz, h₂, hx⟩

theorem lookupAssoc_updateAssoc {β : Type} (l : List (String × β)) (k key : String) (v : β) :
    lookupAssoc (updateAssoc l k v) key = if k = key then some v else lookupAssoc l key := by
  induction l with
  | nil => simp [updateAssoc, lookupAssoc]
  | cons e r ih =>
    by_cases he : e.1 = k
    · rw [show e = (e.1, e.2) from rfl]
      simp only [updateAssoc, he, if_true, lookupAssoc]
      by_cases hk : k = key
      · simp [hk]
      · simp [hk, lookupAssoc, he]
    · rw [show e = (e.1, e.2) from rfl]
      simp only [updateAssoc, he, if_false, lookupAssoc]
      by_cases hek : e.1 = key
      · have : ¬(k = key) := fun h => he (h ▸ hek)
        simp [hek, this]
      · simp [hek, ih]

theorem mem_updateAssoc {β : Type} {l : List (String × β)} {k : String} {v : β}
    {kv : String × β} (h : kv ∈ updateAssoc l k v) : kv = (k, v) ∨ kv ∈ l := by
  induction l with
  | nil => simpa [updateAssoc] using h
  | cons e r ih =>
    by_cases he : e.1 = k
    · rw [show e = (e.1, e.2) from rfl] at h
      simp only [updateAssoc, he, if_true, List.mem_cons] at h
      rcases h with rfl | h
      · exact Or.inl rfl
      · exact Or.inr (List.mem_cons_of_mem _ h)
    · rw [show e = (e.1, e.2) from rfl] at h
      simp only [updateAssoc, he, if_false, List.mem_cons] at h
      rcases h with h | h
      · exact Or.inr (h ▸ List.mem_cons_self _ _)
      · rcases ih h with h' | h'
        · exact Or.inl h'
        · exact Or.inr (List.mem_cons_of_mem _ h')

theorem fwdProcess_cons (st : FwdState) (surface : List String) (up v : String)
    (vtl : List String) (uvtl : UpnamesVals) :
    fwdProcess st surface ((up, v :: vtl) :: uvtl) =
      ⟨replaceFirst (replaceFirst st.utt surface [v]) [v] [up],
       updateAssoc st.counter up ((lookupAssoc st.counter up).getD 0 + 1),
       updateAssoc st.valform up (v, surface),
       st.subLen + surface.length⟩ := rfl

theorem valsScan_match_step (n : Nat) (surface : List String) (uv : UpnamesVals)
    (rest : List (List String × UpnamesVals)) (st : FwdState)
    (h : containsPhrase st.utt surface = true) :
    valsScan n ((surface, uv) :: rest) st =
      if n ≤ (fwdProcess st surface uv).subLen then
        (if (fwdProcess st surface uv).subLen = n then .ok (fwdProcess st surface uv)
         else .error .assertionError)
      else valsScan n rest (fwdProcess st surface uv) := by
  simp [valsScan, h]

/-- Core lemma of the forward scan: when, of the whole grouped index,
exactly one surface `s` (bound to the group `(up, v :: vtl) :: uvtl`)
takes effect on the utterance — the forms before it never occur, and the
forms after it do not occur in the rewritten utterance — the scan returns
the utterance with the single occurrence site rewritten to the category
label `up`, and the substitution record holds exactly
`{up: (v, s)}`. -/
theorem valsScan_single_match {u s : List String} {up v : String} {vtl : List String}
    {uvtl : UpnamesVals} {l₁ l₂ : List (List String × UpnamesVals)}
    (hs : containsPhrase u s = true)
    (hv : v ∉ u) (hup : up ∉ u)
    (h₁ : ∀ e ∈ l₁, containsPhrase u e.1 = false)
    (h₂ : ∀ e ∈ l₂, ∀ a b, u = a ++ s ++ b → containsPhrase (a ++ up :: b) e.1 = false) :
    ∃ a b, u = a ++ s ++ b ∧ v ∉ a ∧ up ∉ a ∧
      valsScan u.length (l₁ ++ (s, (up, v :: vtl) :: uvtl) :: l₂) ⟨u, [], [], 0⟩ =
        .ok ⟨a ++ up :: b, [(up, 1)], [(up, (v, s))], s.length⟩ := by
  rcases replaceFirst_spec [v] hs with ⟨a, b, hu, hr1⟩
  have hva : v ∉ a := fun hm => hv (hu ▸ List.mem_append_left _ (List.mem_append_left _ hm))
  have hupa : up ∉ a := fun hm => hup (hu ▸ List.mem_append_left _ (List.mem_append_left _ hm))
  have hr2 : replaceFirst (replaceFirst u s [v]) [v] [up] = a ++ up :: b := by
    rw [hr1, show a ++ [v] ++ b = a ++ v :: b by simp,
      replaceFirst_middle (a := a) b [up] (x := v) hva]
    simp
  refine ⟨a, b, hu, hva, hupa, ?_⟩
  rw [valsScan_append_skip h₁, valsScan_match_step _ _ _ _ _ hs, fwdProcess_cons]
  have hst : (⟨replaceFirst (replaceFirst u s [v]) [v] [up],
      updateAssoc [] up ((lookupAssoc [] up).getD 0 + 1),
      updateAssoc [] up (v, s), 0 + s.length⟩ : FwdState) =
      ⟨a ++ up :: b, [(up, 1)], [(up, (v, s))], s.length⟩ := by
    rw [hr2]
    simp [updateAssoc, lookupAssoc]
  rw [hst]
  have hlen : u.length = a.length + s.length + b.length := by
    rw [hu]
    simp [List.length_append]
    omega
  by_cases hle : u.length ≤ s.length
  · have hab : a.length = 0 ∧ b.length = 0 := by omega
    have hsl : s.length = u.length := by omega
    simp [hle, hsl]
  · simp only [hle, if_false]
    exact valsScan_skip_all (fun e he => h₂ e he a b hu)

theorem contains_middle_lift {utt a b f s : List String} {up : String}
    (hu : utt = a ++ s ++ b) (hupf : up ∉ f)
    (hutt : containsPhrase utt f = false) :
    containsPhrase (a ++ up :: b) f = false := by
  cases hc : containsPhrase (a ++ up :: b) f with
  | false => rfl
  | true =>
    exfalso
    rcases contains_middle hc hupf with h | h
    · have h' := contains_append_left (s ++ b) h
      rw [← List.append_assoc] at h'
      rw [← hu] at h'
      rw [h'] at hutt
      exact Bool.true_eq_false.mp hutt
    · have h' := contains_append_right (a ++ s) h
      rw [← hu] at h'
      rw [h'] at hutt
      exact Bool.true_eq_false.mp hutt

/-- The forward pass under the single-match hypotheses, phrased on
`values2category_labels_in_utterance`. -/
theorem forward_single_match
    (cldb : CategoryLabelDatabase) (utt : List String) {s : List String} {up v : String}
    {vtl : List String} {uvtl : UpnamesVals}
    (hfilter : (form_upnames_vals cldb).filter (fun e => containsPhrase utt e.1) =
      [(s, (up, v :: vtl) :: uvtl)])
    (hv : v ∉ utt) (hup : up ∉ utt)
    (hupf : ∀ e ∈ form_upnames_vals cldb, up ∉ e.1) :
    ∃ a b, utt = a ++ s ++ b ∧ up ∉ a ∧
      values2category_labels_in_utterance cldb utt =
        .ok (a ++ up :: b, [(up, (v, s))]) := by
  rcases filter_eq_singleton hfilter with ⟨l₁, l₂, hsplit, h₁, h₂, hx⟩
  have hx' : containsPhrase utt s = true := hx
  have h₁' : ∀ e ∈ l₁, containsPhrase utt e.1 = false := fun e he => h₁ e he
  have h₂' : ∀ e ∈ l₂, ∀ a b, utt = a ++ s ++ b →
      containsPhrase (a ++ up :: b) e.1 = false := by
    intro e he a b hu
    have hmem : e ∈ form_upnames_vals cldb := by
      rw [hsplit]
      exact List.mem_append_right _ (List.mem_cons_of_mem _ he)
    exact contains_middle_lift hu (hupf e hmem) (h₂ e he)
  rcases @valsScan_single_match utt s up v vtl uvtl l₁ l₂
      hx' hv hup h₁' h₂' with ⟨a, b, hu, hva, hupa, hscan⟩
  refine ⟨a, b, hu, hupa, ?_⟩
  unfold values2category_labels_in_utterance
  rw [hsplit, hscan]
  rfl

/-- C2 (amended): under hypotheses excluding the two rewrite collisions
(value token already present; several surfaces of one slot sharing the
bare label), forward then backward substitution restores the utterance. -/
theorem c2_round_trip_amended
    (cldb : CategoryLabelDatabase) (utt : List String) {s : List String} {up v : String}
    {vtl : List String} {uvtl : UpnamesVals}
    (hfilter : (form_upnames_vals cldb).filter (fun e => containsPhrase utt e.1) =
      [(s, (up, v :: vtl) :: uvtl)])
    (hv : v ∉ utt) (hup : up ∉ utt)
    (hupf : ∀ e ∈ form_upnames_vals cldb, up ∉ e.1) :
    ∃ u', values2category_labels_in_utterance cldb utt = .ok (u', [(up, (v, s))]) ∧
      category_labels2values_in_utterance u' [(up, (v, s))] = utt := by
  rcases forward_single_match cldb utt hfilter hv hup hupf with ⟨a, b, hu, hupa, hfw⟩
  refine ⟨a ++ up :: b, hfw, ?_⟩
  show replaceFirst (a ++ up :: b) [up] s = utt
  rw [replaceFirst_middle b s hupa, ← hu]

/-- C1 (amended): the grouped index is sorted by descending surface-form
token count and the scan consults it in that order; consequently, when
"Karlovy Vary" occurs in the utterance, its token "Vary" occurs nowhere
else, no other database form occurs, and the selected value and category
label collide with nothing, the scan matches "Karlovy Vary" and the record
holds exactly the "Karlovy Vary" entry — "Vary" is never matched. -/
theorem c1_longest_match_amended :
    (∀ cldb : CategoryLabelDatabase,
       List.Pairwise (fun a b => b.1.length ≤ a.1.length) (form_upnames_vals cldb)) ∧
    (∀ (cldb : CategoryLabelDatabase) (utt : List String) (up v : String)
       (vtl : List String) (uvtl uv' : UpnamesVals),
       (["Karlovy", "Vary"], (up, v :: vtl) :: uvtl) ∈ form_upnames_vals cldb →
       (["Vary"], uv') ∈ form_upnames_vals cldb →
       containsPhrase utt ["Karlovy", "Vary"] = true →
       utt.count "Vary" = 1 →
       (∀ e ∈ form_upnames_vals cldb, e.1 ≠ ["Karlovy", "Vary"] → e.1 ≠ ["Vary"] →
         containsPhrase utt e.1 = false) →
       v ∉ utt → up ∉ utt →
       (∀ e ∈ form_upnames_vals cldb, up ∉ e.1) →
       ∃ u', values2category_labels_in_utterance cldb utt =
         .ok (u', [(up, (v, ["Karlovy", "Vary"]))])) := by
  refine ⟨fun cldb => form_upnames_vals_sorted cldb, ?_⟩
  intro cldb utt up v vtl uvtl uv' hKV hV hcont hcount hothers hv hup hupf
  rcases List.append_of_mem hKV with ⟨l₁, l₂, hsplit⟩
  have hnd := form_upnames_vals_nodup_keys cldb
  rw [hsplit, List.map_append, List.map_cons] at hnd
  have hnd' : (["Karlovy", "Vary"] : List String) ∉
      l₁.map (fun e => e.1) ++ l₂.map (fun e => e.1) := by
    have := List.nodup_middle.mp (by simpa using hnd)
    exact (List.nodup_cons.mp this).1
  have hKVnotl₁ : ∀ e ∈ l₁, e.1 ≠ ["Karlovy", "Vary"] := by
    intro e he heq
    exact hnd' (List.mem_append_left _ (heq ▸ List.mem_map_of_mem (fun e => e.1) he))
  have hKVnotl₂ : ∀ e ∈ l₂, e.1 ≠ ["Karlovy", "Vary"] := by
    intro e he heq
    exact hnd' (List.mem_append_right _ (heq ▸ List.mem_map_of_mem (fun e => e.1) he))
  have hsort := form_upnames_vals_sorted cldb
  rw [hsplit] at hsort
  have hlong : ∀ e ∈ l₁, 2 ≤ e.1.length := by
    intro e he
    have := (List.pairwise_append.mp hsort).2.2 e he
      (["Karlovy", "Vary"], (up, v :: vtl) :: uvtl) (List.mem_cons_self _ _)
    simpa using this
  have hmeml₁ : ∀ e ∈ l₁, e ∈ form_upnames_vals cldb := by
    intro e he
    rw [hsplit]
    exact List.mem_append_left _ he
  have hmeml₂ : ∀ e ∈ l₂, e ∈ form_upnames_vals cldb := by
    intro e he
    rw [hsplit]
    exact List.mem_append_right _ (List.mem_cons_of_mem _ he)
  have h₁ : ∀ e ∈ l₁, containsPhrase utt e.1 = false := by
    intro e he
    refine hothers e (hmeml₁ e he) (hKVnotl₁ e he) ?_
    intro heq
    have := hlong e he
    rw [heq] at this
    simp at this
  have h₂ : ∀ e ∈ l₂, ∀ a b, utt = a ++ ["Karlovy", "Vary"] ++ b →
      containsPhrase (a ++ up :: b) e.1 = false := by
    intro e he a b hu
    by_cases hVary : e.1 = ["Vary"]
    · rw [hVary]
      have hcnt : utt.count "Vary" = a.count "Vary" + 1 + b.count "Vary" := by
        rw [hu, List.count_append, List.count_append]
        simp [List.count_cons]
      have hca : a.count "Vary" = 0 := by omega
      have hcb : b.count "Vary" = 0 := by omega
      have hna : "Vary" ∉ a := List.count_eq_zero.mp hca
      have hnb : "Vary" ∉ b := List.count_eq_zero.mp hcb
      have hnup : up ≠ "Vary" := by
        intro h
        refine hup ?_
        rw [hu, h]
        exact List.mem_append_left _ (List.mem_append_right _ (by simp))
      cases hc : containsPhrase (a ++ up :: b) ["Vary"] with
      | false => rfl
      | true =>
        exfalso
        have := contains_singleton.mp hc
        rcases List.mem_append.mp this with h | h
        · exact hna h
        · rcases List.mem_cons.mp h with h | h
          · exact hnup h.symm
          · exact hnb h
    · exact contains_middle_lift hu (hupf e (hmeml₂ e he))
        (hothers e (hmeml₂ e he) (hKVnotl₂ e he) hVary)
  rcases @valsScan_single_match utt ["Karlovy", "Vary"] up v vtl uvtl l₁ l₂
      hcont hv hup h₁ h₂ with ⟨a, b, hu, hva, hupa, hscan⟩
  refine ⟨a ++ up :: b, ?_⟩
  unfold values2category_labels_in_utterance
  rw [hsplit, hscan]
  rfl

theorem except_map_ok {ε α β : Type} {f : α → β} {e : Except ε α} {x : β}
    (h : Except.map f e = .ok x) : ∃ y, e = .ok y ∧ f y = x := by
  cases e with
  | error err => simp [Except.map] at h
  | ok y => exact ⟨y, rfl, by simpa [Except.map] using h⟩

theorem fwdProcess_valform_mem {st : FwdState} {surface : List String} {uv : UpnamesVals}
    {kv : String × (String × List String)}
    (h : kv ∈ (fwdProcess st surface uv).valform) :
    kv ∈ st.valform ∨ ∃ vs tl, uv = (kv.1, vs) :: tl := by
  cases uv with
  | nil => exact Or.inl h
  | cons g tl =>
    obtain ⟨up, vs⟩ := g
    rcases mem_updateAssoc h with rfl | h'
    · exact Or.inr ⟨vs, tl, rfl⟩
    · exact Or.inl h'

theorem valsScan_valform {n : Nat} {l : List (List String × UpnamesVals)}
    {st st' : FwdState} (h : valsScan n l st = .ok st') :
    ∀ kv ∈ st'.valform, kv ∈ st.valform ∨ ∃ e ∈ l, ∃ vs tl, e.2 = (kv.1, vs) :: tl := by
  induction l generalizing st with
  | nil =>
    intro kv hkv
    simp only [valsScan, Except.ok.injEq] at h
    exact Or.inl (h ▸ hkv)
  | cons e rest ih =>
    intro kv hkv
    obtain ⟨surface, uv⟩ := e
    by_cases hc : containsPhrase st.utt surface = true
    · rw [valsScan_match_step _ _ _ _ _ hc] at h
      by_cases hle : n ≤ (fwdProcess st surface uv).subLen
      · rw [if_pos hle] at h
        by_cases heq : (fwdProcess st surface uv).subLen = n
        · rw [if_pos heq] at h
          have hst : st' = fwdProcess st surface uv := by
            injection h with h
            exact h.symm
          rcases fwdProcess_valform_mem (hst ▸ hkv) with h' | ⟨vs, tl, htl⟩
          · exact Or.inl h'
          · exact Or.inr ⟨(surface, uv), List.mem_cons_self _ _, vs, tl, htl⟩
        · rw [if_neg heq] at h
          exact absurd h (by simp)
      · rw [if_neg hle] at h
        rcases ih h kv hkv with h' | h'
        · rcases fwdProcess_valform_mem h' with h'' | ⟨vs, tl, htl⟩
          · exact Or.inl h''
          · exact Or.inr ⟨(surface, uv), List.mem_cons_self _ _, vs, tl, htl⟩
        · rcases h' with ⟨e', he', vs, tl, htl⟩
          exact Or.inr ⟨e', List.mem_cons_of_mem _ he', vs, tl, htl⟩
    · rw [valsScan_skip (Bool.not_eq_true _ ▸ hc)] at h
      rcases ih h kv hkv with h' | ⟨e', he', vs, tl, htl⟩
      · exact Or.inl h'
      · exact Or.inr ⟨e', List.mem_cons_of_mem _ he', vs, tl, htl⟩

theorem nblProcess_valform_mem {α : Type} {st : NblState α} {surface : List String}
    {uv : UpnamesVals} {kv : String × (String × List String)}
    (h : kv ∈ (nblProcess st surface uv).valform) :
    kv ∈ st.valform ∨ ∃ up vs tl k, uv = (up, vs) :: tl ∧
      kv.1 = up ++ "-" ++ toString (k : Nat) := by
  cases uv with
  | nil => exact Or.inl h
  | cons g tl =>
    obtain ⟨up, vs⟩ := g
    rcases mem_updateAssoc h with rfl | h'
    · exact Or.inr ⟨up, vs, tl, (lookupAssoc st.counter up).getD 0, rfl, rfl⟩
    · exact Or.inl h'

theorem nblScan_match_step {α : Type} (n : Nat) (surface : List String) (uv : UpnamesVals)
    (rest : List (List String × UpnamesVals)) (st : NblState α)
    (h : st.nbl.any (fun hyp => containsPhrase hyp.2 surface) = true) :
    nblScan n ((surface, uv) :: rest) st =
      if n ≤ (nblProcess st surface uv).subLen then
        (if (nblProcess st surface uv).subLen = n then .ok (nblProcess st surface uv)
         else .error .assertionError)
      else nblScan n rest (nblProcess st surface uv) := by
  simp [nblScan, h]

theorem nblScan_valform {α : Type} {n : Nat} {l : List (List String × UpnamesVals)}
    {st st' : NblState α} (h : nblScan n l st = .ok st') :
    ∀ kv ∈ st'.valform, kv ∈ st.valform ∨
      ∃ e ∈ l, ∃ up vs tl k, e.2 = (up, vs) :: tl ∧
        kv.1 = up ++ "-" ++ toString (k : Nat) := by
  induction l generalizing st with
  | nil =>
    intro kv hkv
    simp only [nblScan, Except.ok.injEq] at h
    exact Or.inl (h ▸ hkv)
  | cons e rest ih =>
    intro kv hkv
    obtain ⟨surface, uv⟩ := e
    by_cases hc : st.nbl.any (fun hyp => containsPhrase hyp.2 surface) = true
    · rw [nblScan_match_step _ _ _ _ _ hc] at h
      by_cases hle : n ≤ (nblProcess st surface uv).subLen
      · rw [if_pos hle] at h
        by_cases heq : (nblProcess st surface uv).subLen = n
        · rw [if_pos heq] at h
          have hst : st' = nblProcess st surface uv := by
            injection h with h
            exact h.symm
          rcases nblProcess_valform_mem (hst ▸ hkv) with h' | ⟨up, vs, tl, k, htl, hk⟩
          · exact Or.inl h'
          · exact Or.inr ⟨(surface, uv), List.mem_cons_self _ _, up, vs, tl, k, htl, hk⟩
        · rw [if_neg heq] at h
          exact absurd h (by simp)
      · rw [if_neg hle] at h
        rcases ih h kv hkv with h' | h'
        · rcases nblProcess_valform_mem h' with h'' | ⟨up, vs, tl, k, htl, hk⟩
          · exact Or.inl h''
          · exact Or.inr ⟨(surface, uv), List.mem_cons_self _ _, up, vs, tl, k, htl, hk⟩
        · rcases h' with ⟨e', he', up, vs, tl, k, htl, hk⟩
          exact Or.inr ⟨e', List.mem_cons_of_mem _ he', up, vs, tl, k, htl, hk⟩
    · have hc' : st.nbl.any (fun hyp => containsPhrase hyp.2 surface) = false :=
        Bool.not_eq_true _ ▸ hc
      rw [show nblScan n ((surface, uv) :: rest) st = nblScan n rest st by
        simp [nblScan, hc']] at h
      rcases ih h kv hkv with h' | ⟨e', he', up, vs, tl, k, htl, hk⟩
      · exact Or.inl h'
      · exact Or.inr ⟨e', List.mem_cons_of_mem _ he', up, vs, tl, k, htl, hk⟩

theorem confnetScan_valform {l : List (List String × UpnamesVals)}
    {c c' : Confnet} {r r' : Record} (h : confnetScan l c r = .ok (c', r')) :
    ∀ kv ∈ r', kv ∈ r ∨ ∃ e ∈ l, ∃ vs tl, e.2 = (kv.1, vs) :: tl := by
  induction l generalizing c r with
  | nil =>
    intro kv hkv
    simp only [confnetScan, Except.ok.injEq, Prod.mk.injEq] at h
    exact Or.inl (h.2 ▸ hkv)
  | cons e rest ih =>
    intro kv hkv
    obtain ⟨surface, uv⟩ := e
    by_cases hc : confnetContains c surface = true
    · cases uv with
      | nil =>
        rw [show confnetScan ((surface, []) :: rest) c r = confnetScan rest c r by
          simp [confnetScan, hc]] at h
        rcases ih h kv hkv with h' | ⟨e', he', vs, tl, htl⟩
        · exact Or.inl h'
        · exact Or.inr ⟨e', List.mem_cons_of_mem _ he', vs, tl, htl⟩
      | cons g tl =>
        obtain ⟨up, vs⟩ := g
        have hstep : confnetScan ((surface, (up, vs) :: tl) :: rest) c r =
            match (confnetReplace c surface [vs.headD ""]).bind
                (fun c1 => confnetReplace c1 [vs.headD ""] [up]) with
            | .ok c2 => confnetScan rest c2 (updateAssoc r up (vs.headD "", surface))
            | .error e =>
              match strPlusExc "(EE) " e with
              | .error e' => .error e'
              | .ok _ => confnetScan rest c (updateAssoc r up (vs.headD "", surface)) := by
          simp [confnetScan, hc]
        rw [hstep] at h
        cases hrw : (confnetReplace c surface [vs.headD ""]).bind
            (fun c1 => confnetReplace c1 [vs.headD ""] [up]) with
        | ok c2 =>
          rw [hrw] at h
          rcases ih h kv hkv with h' | ⟨e', he', vs', tl', htl⟩
          · rcases mem_updateAssoc h' with rfl | h''
            · exact Or.inr ⟨(surface, (up, vs) :: tl), List.mem_cons_self _ _, vs, tl, rfl⟩
            · exact Or.inl h''
          · exact Or.inr ⟨e', List.mem_cons_of_mem _ he', vs', tl', htl⟩
        | error err =>
          rw [hrw] at h
          exact absurd h (by simp [strPlusExc])
    · rw [show confnetScan ((surface, uv) :: rest) c r = confnetScan rest c r by
        simp [confnetScan, Bool.not_eq_true _ ▸ hc]] at h
      rcases ih h kv hkv with h' | ⟨e', he', vs, tl, htl⟩
      · exact Or.inl h'
      · exact Or.inr ⟨e', List.mem_cons_of_mem _ he', vs, tl, htl⟩

/-- C5 (amended): the category label synthesized by the utterance and
confusion-network forward scans is always the bare upper-cased slot name
of some synonym record (an instance index is never appended, even when a
slot recurs — the recurring slot then overwrites its record entry), while
the n-best-list forward scan always appends "-" and a numeric per-slot
instance index, even for the first match of a slot. -/
theorem c5_label_shape_amended :
    (∀ (cldb : CategoryLabelDatabase) (utt u : List String) (r : Record),
       values2category_labels_in_utterance cldb utt = .ok (u, r) →
       ∀ kv ∈ r, ∃ t ∈ cldb.synonym_value_category, kv.1 = upperStr t.2.2) ∧
    (∀ (α : Type) (cldb : CategoryLabelDatabase) (nbl l : List (α × List String)) (r : Record),
       values2category_labels_in_uttnblist cldb nbl = .ok (l, r) →
       ∀ kv ∈ r, ∃ t ∈ cldb.synonym_value_category, ∃ k : Nat,
         kv.1 = upperStr t.2.2 ++ "-" ++ toString k) ∧
    (∀ (cldb : CategoryLabelDatabase) (cn c : Confnet) (r : Record),
       values2category_labels_in_confnet cldb cn = .ok (c, r) →
       ∀ kv ∈ r, ∃ t ∈ cldb.synonym_value_category, kv.1 = upperStr t.2.2) := by
  refine ⟨?_, ?_, ?_⟩
  · intro cldb utt u r h kv hkv
    rcases except_map_ok h with ⟨st', hscan, hst⟩
    have hkv' : kv ∈ st'.valform := by
      have : st'.valform = r := congrArg Prod.snd hst
      rw [this]
      exact hkv
    rcases valsScan_valform hscan kv hkv' with h' | ⟨e, he, vs, tl, htl⟩
    · simp at h'
    · have hg : (kv.1, vs) ∈ e.2 := htl ▸ List.mem_cons_self _ _
      rcases form_upnames_vals_upnames cldb e he (kv.1, vs) hg with ⟨t, ht, hup⟩
      exact ⟨t, ht, hup⟩
  · intro α cldb nbl l r h kv hkv
    rcases except_map_ok h with ⟨st', hscan, hst⟩
    have hkv' : kv ∈ st'.valform := by
      have : st'.valform = r := congrArg Prod.snd hst
      rw [this]
      exact hkv
    rcases nblScan_valform hscan kv hkv' with h' | ⟨e, he, up, vs, tl, k, htl, hk⟩
    · simp at h'
    · have hg : (up, vs) ∈ e.2 := htl ▸ List.mem_cons_self _ _
      rcases form_upnames_vals_upnames cldb e he (up, vs) hg with ⟨t, ht, hup⟩
      exact ⟨t, ht, k, by rw [hk, show up = upperStr t.2.2 from hup]⟩
  · intro cldb cn c r h kv hkv
    rcases confnetScan_valform h kv hkv with h' | ⟨e, he, vs, tl, htl⟩
    · simp at h'
    · have hg : (kv.1, vs) ∈ e.2 := htl ▸ List.mem_cons_self _ _
      rcases form_upnames_vals_upnames cldb e he (kv.1, vs) hg with ⟨t, ht, hup⟩
      exact ⟨t, ht, hup⟩

theorem lookup_cl_for_value_foldl (r : Record) (acc : List (String × String))
    (val cl : String)
    (h : lookupAssoc (r.foldl (fun acc it => updateAssoc acc it.2.1 it.1) acc) val =
      some cl) :
    lookupAssoc acc val = some cl ∨ ∃ kv ∈ r, kv.1 = cl ∧ kv.2.1 = val := by
  induction r generalizing acc with
  | nil => exact Or.inl h
  | cons it rest ih =>
    rcases ih (updateAssoc acc it.2.1 it.1) h with h' | ⟨kv, hkv, h1, h2⟩
    · rw [lookupAssoc_updateAssoc] at h'
      by_cases hv : it.2.1 = val
      · rw [if_pos hv] at h'
        exact Or.inr ⟨it, List.mem_cons_self _ _, Option.some.injEq _ _ ▸ h', hv⟩
      · rw [if_neg hv] at h'
        exact Or.inl h'
    · exact Or.inr ⟨kv, List.mem_cons_of_mem _ hkv, h1, h2⟩

theorem lookup_cl_for_value {r : Record} {val cl : String}
    (h : lookupAssoc (cl_for_value r) val = some cl) :
    ∃ kv ∈ r, kv.1 = cl ∧ kv.2.1 = val := by
  rcases lookup_cl_for_value_foldl r [] val cl h with h' | h'
  · simp [lookupAssoc] at h'
  · exact h'

theorem matching_triples_head {cldb : CategoryLabelDatabase} {dai : DialogueActItem}
    {tup : List String × String × String} {l : List (List String × String × String)}
    (h : matching_triples cldb dai = tup :: l) : tup.2.2 = upperStr dai.name := by
  have hmem : tup ∈ matching_triples cldb dai := h ▸ List.mem_cons_self _ _
  have := List.of_mem_filter hmem
  simp only [Bool.and_eq_true, decide_eq_true_eq] at this
  exact this.2

/-- C7: in `values2category_labels_in_da` every dialogue-act item is
rewritten independently: a value appearing in the (inverted) substitution
record is replaced by an associated category label recorded for it; a
value absent from the record falls back to the same-slot database lookup,
which labels it with the upper-cased slot name; an item matching neither
keeps its literal value. -/
theorem c7_da_alignment (cldb : CategoryLabelDatabase) (utt : List String)
    (da : List DialogueActItem) (u : List String) (da' : List DialogueActItem)
    (r : Record)
    (h : values2category_labels_in_da cldb utt da = .ok (u, da', r)) :
    values2category_labels_in_utterance cldb utt = .ok (u, r) ∧
    da' = da.map (daiSubst cldb (cl_for_value r)) ∧
    ∀ dai ∈ da,
      (∀ cl, lookupAssoc (cl_for_value r) dai.value = some cl →
        daiSubst cldb (cl_for_value r) dai = { dai with value := cl } ∧
        ∃ kv ∈ r, kv.1 = cl ∧ kv.2.1 = dai.value) ∧
      (lookupAssoc (cl_for_value r) dai.value = none →
        (matching_triples cldb dai = [] → daiSubst cldb (cl_for_value r) dai = dai) ∧
        (∀ tup l, matching_triples cldb dai = tup :: l →
          daiSubst cldb (cl_for_value r) dai = { dai with value := upperStr dai.name })) := by
  rcases except_map_ok h with ⟨p, hok, hp⟩
  obtain ⟨pu, pr⟩ := p
  simp only [Prod.mk.injEq] at hp
  obtain ⟨h1, h2, h3⟩ := hp
  subst h1
  subst h3
  refine ⟨hok, h2.symm, ?_⟩
  intro dai _
  constructor
  · intro cl hcl
    refine ⟨by simp [daiSubst, hcl, DialogueActItem.value2category_label], ?_⟩
    exact lookup_cl_for_value hcl
  · intro hnone
    constructor
    · intro hmt
      simp [daiSubst, hnone, hmt]
    · intro tup l hmt
      have := matching_triples_head hmt
      simp [daiSubst, hnone, hmt, DialogueActItem.value2category_label, this]

theorem backward_no_label {cls : Record} (utt : List String)
    (h : ∀ kv ∈ cls, containsPhrase utt [kv.1] = false) :
    category_labels2values_in_utterance utt cls = utt := by
  induction cls generalizing utt with
  | nil => rfl
  | cons kv rest ih =>
    show (rest.foldl (fun u e => replaceFirst u [e.1] e.2.2)
      (replaceFirst utt [kv.1] kv.2.2)) = utt
    rw [replaceFirst_of_not_contains kv.2.2 (h kv (List.mem_cons_self _ _))]
    exact ih utt (fun kv' hkv' => h kv' (List.mem_cons_of_mem _ hkv'))

/-- C8 (amended): backward substitution over an utterance replaces, for
each record entry in turn, the first occurrence of the category label by
the recorded original surface tokens; tokens that are no record label —
including a category label missing from the record — are never rewritten
(an utterance containing no record label is returned unchanged); and the
n-best-list variant never restores anything: whenever it returns a list
at all, it is the copied input unchanged. -/
theorem c8_backward_amended :
    (∀ (a b : List String) (cl v : String) (s : List String), cl ∉ a →
       category_labels2values_in_utterance (a ++ cl :: b) [(cl, (v, s))] = a ++ s ++ b) ∧
    (∀ (utt : List String) (cls : Record),
       (∀ kv ∈ cls, containsPhrase utt [kv.1] = false) →
       category_labels2values_in_utterance utt cls = utt) ∧
    (∀ (α : Type) (nbl l : List (α × List String)) (cls : Record),
       category_labels2values_in_uttnblist nbl cls = .ok l → l = nbl) := by
  refine ⟨?_, ?_, ?_⟩
  · intro a b cl v s hcl
    show replaceFirst (a ++ cl :: b) [cl] s = a ++ s ++ b
    exact replaceFirst_middle b s hcl
  · intro utt cls h
    exact backward_no_label utt h
  · intro α nbl l cls h
    cases nbl with
    | nil =>
      simp only [category_labels2values_in_uttnblist, Except.ok.injEq] at h
      exact h.symm
    | cons hyp rest =>
      cases cls with
      | nil =>
        simp only [category_labels2values_in_uttnblist, Except.ok.injEq] at h
        exact h.symm
      | cons kv rest' =>
        simp [category_labels2values_in_uttnblist] at h

theorem foldl_replaceFirst_no_occur {ms : List (List String × List String)}
    (utt : List String) (h : ∀ m ∈ ms, containsPhrase utt m.1 = false) :
    ms.foldl (fun u m => replaceFirst u m.1 m.2) utt = utt := by
  induction ms generalizing utt with
  | nil => rfl
  | cons m rest ih =>
    show (rest.foldl (fun u m => replaceFirst u m.1 m.2)
      (replaceFirst utt m.1 m.2)) = utt
    rw [replaceFirst_of_not_contains m.2 (h m (List.mem_cons_self _ _))]
    exact ih utt (fun m' hm' => h m' (List.mem_cons_of_mem _ hm'))

/-- C4 (amended): the substitution operations rewrite an independent copy
and leave their input unchanged, but the normalisation operation mutates
the caller's utterance object by lower-casing it in place: after the call
the caller's object is its lower-cased self (so an already-lower-case
input is left unchanged), and all rule rewriting happens on separately
returned objects (an already-lower-case input matching no rule source is
returned unchanged as well). -/
theorem c4_no_mutation_amended :
    (∀ utt : List String, (text_normalisation utt).2 = utt.map lowerStr) ∧
    (∀ utt : List String, (∀ t ∈ utt, lowerStr t = t) →
       (text_normalisation utt).2 = utt) ∧
    (∀ utt : List String, (∀ t ∈ utt, lowerStr t = t) →
       (∀ m ∈ text_normalization_mapping, containsPhrase utt m.1 = false) →
       text_normalisation utt = (utt, utt)) := by
  have hmap : ∀ utt : List String, (∀ t ∈ utt, lowerStr t = t) → utt.map lowerStr = utt := by
    intro utt h
    induction utt with
    | nil => rfl
    | cons x xs ih =>
      rw [List.map_cons, h x (List.mem_cons_self _ _),
        ih (fun t ht => h t (List.mem_cons_of_mem _ ht))]
  refine ⟨fun utt => rfl, ?_, ?_⟩
  · intro utt h
    show utt.map lowerStr = utt
    exact hmap utt h
  · intro utt h hno
    show (text_normalization_mapping.foldl (fun u m => replaceFirst u m.1 m.2)
      (utt.map lowerStr), utt.map lowerStr) = (utt, utt)
    rw [hmap utt h]
    rw [foldl_replaceFirst_no_occur utt hno]

theorem mapExcept_error {γ δ : Type} {f : γ → Except PyExc δ} {l : List γ} {e : PyExc}
    (h : mapExcept f l = .error e) : ∃ x ∈ l, f x = .error e := by
  induction l with
  | nil => simp [mapExcept] at h
  | cons x xs ih =>
    have hrw : mapExcept f (x :: xs) =
        Except.bind (f x) (fun y =>
          Except.bind (mapExcept f xs) (fun ys => .ok (y :: ys))) := rfl
    rw [hrw] at h
    cases hfx : f x with
    | error e' =>
      rw [hfx] at h
      have he : e' = e := by
        simpa [Except.bind] using h
      exact ⟨x, List.mem_cons_self _ _, by rw [hfx, he]⟩
    | ok y =>
      rw [hfx] at h
      cases hm : mapExcept f xs with
      | error e' =>
        rw [hm] at h
        have he : e' = e := by
          simpa [Except.bind] using h
        rcases ih (by rw [hm, he]) with ⟨z, hz, hfz⟩
        exact ⟨z, List.mem_cons_of_mem _ hz, hfz⟩
      | ok ys =>
        rw [hm] at h
        simp [Except.bind] at h

theorem pyGetItem_not_slu {v k : PyVal} {e : PyExc} (h : pyGetItem v k = .error e) :
    e.isConfigError = false := by
  cases v with
  | str s =>
    simp only [pyGetItem, Except.error.injEq] at h
    rw [← h]
    rfl
  | list xs =>
    simp only [pyGetItem, Except.error.injEq] at h
    rw [← h]
    rfl
  | dict xs =>
    cases k with
    | str s =>
      cases hl : lookupAssoc xs s with
      | some w => simp [pyGetItem, hl] at h
      | none =>
        simp only [pyGetItem, hl, Except.error.injEq] at h
        rw [← h]
        rfl
    | list ys =>
      simp only [pyGetItem, Except.error.injEq] at h
      rw [← h]
      rfl
    | dict ys =>
      simp only [pyGetItem, Except.error.injEq] at h
      rw [← h]
      rfl

theorem pySplit_not_slu {v : PyVal} {e : PyExc} (h : pySplit v = .error e) :
    e.isConfigError = false := by
  cases v with
  | str s => simp [pySplit] at h
  | list xs =>
    simp only [pySplit, Except.error.injEq] at h
    rw [← h]
    rfl
  | dict xs =>
    simp only [pySplit, Except.error.injEq] at h
    rw [← h]
    rfl

theorem tokenisePhrases_not_slu {x : PyVal} {e : PyExc}
    (h : tokenisePhrases x = .error e) : e.isConfigError = false := by
  have hrw : tokenisePhrases x =
      Except.bind (mapExcept pySplit (pyIterVals x)) (fun toks => .ok (.list toks)) := rfl
  rw [hrw] at h
  cases hm : mapExcept pySplit (pyIterVals x) with
  | error e' =>
    rw [hm] at h
    have he : e' = e := by
      simpa [Except.bind] using h
    rcases mapExcept_error (by rw [hm, he]) with ⟨z, _, hfz⟩
    exact pySplit_not_slu hfz
  | ok toks =>
    rw [hm] at h
    simp [Except.bind] at h

theorem except_bind_ok {ε α β : Type} (x : α) (f : α → Except ε β) :
    Except.bind (Except.ok x) f = f x := rfl

theorem except_bind_error_eq {ε α β : Type} (err : ε) (f : α → Except ε β) :
    Except.bind (Except.error err) f = Except.error err := rfl

theorem normaliseSlot_not_slu {db name : PyVal} {e : PyExc}
    (h : normaliseSlot db name = .error e) : e.isConfigError = false := by
  unfold normaliseSlot at h
  by_cases hh : pyHashable name
  · rw [if_pos hh] at h
    simp only [except_bind_ok] at h
    cases hg : pyGetItem db name with
    | error e' =>
      rw [hg] at h
      simp only [except_bind_error_eq, Except.error.injEq] at h
      exact pyGetItem_not_slu (by rw [hg, h])
    | ok inner =>
      rw [hg] at h
      simp only [except_bind_ok] at h
      cases hm : mapExcept (fun value =>
          Except.bind (pyGetItem inner value) (fun phrases =>
            Except.bind (tokenisePhrases phrases) (fun toks =>
              Except.ok (value, toks)))) (pyIterVals inner) with
      | error e' =>
        rw [hm] at h
        simp only [except_bind_error_eq, Except.error.injEq] at h
        rcases mapExcept_error (by rw [hm, h]) with ⟨value, _, hfz⟩
        cases hgi : pyGetItem inner value with
        | error e'' =>
          rw [hgi] at hfz
          simp only [except_bind_error_eq, Except.error.injEq] at hfz
          exact pyGetItem_not_slu (by rw [hgi, hfz])
        | ok phrases =>
          rw [hgi] at hfz
          simp only [except_bind_ok] at hfz
          cases ht : tokenisePhrases phrases with
          | error e'' =>
            rw [ht] at hfz
            simp only [except_bind_error_eq, Except.error.injEq] at hfz
            exact tokenisePhrases_not_slu (by rw [ht, hfz])
          | ok toks =>
            rw [ht] at hfz
            simp [except_bind_ok] at hfz
      | ok pairs =>
        rw [hm] at h
        simp [except_bind_ok] at h
  · rw [if_neg hh] at h
    simp only [except_bind_error_eq, Except.error.injEq] at h
    rw [← h]
    rfl

/-- The dynamic `normalise_database` traversal never raises the
configuration error (`SLUException`): its failures are ordinary
`TypeError` / `AttributeError` values. -/
theorem normalise_database_py_not_slu {v : PyVal} {e : PyExc}
    (h : normalise_database_py v = .error e) : e.isConfigError = false := by
  rcases mapExcept_error h with ⟨name, _, hslot⟩
  exact normaliseSlot_not_slu hslot

/-- C9 (amended): `load` raises the configuration error (`SLUException`)
exactly when the loaded module defines no `database` object.  A `database`
value lacking the required two-level mapping shape is not a configuration
error: the normalisation traversal either raises an ordinary dynamic
error (`TypeError` / `AttributeError`, e.g. when the value level is a
bare string) or silently accepts the malformed source (e.g. a phrase
string in place of the phrase list is consumed character by character),
so the engine can come up with a garbage database rather than fail. -/
theorem c9_config_error_amended :
    loadPy none = .error (.sluException
      "The category label database does not define the database object!") ∧
    (∀ (v : PyVal) (e : PyExc), loadPy (some v) = .error e →
      e.isConfigError = false) ∧
    (∃ db, loadPy (some srcStrPhrases) = .ok db) ∧
    loadPy (some srcStrSlot) = .error (.typeError "string indices must be integers") := by
  refine ⟨rfl, ?_, ⟨_, rfl⟩, rfl⟩
  intro v e h
  exact normalise_database_py_not_slu h

/-! ### Claim-level concrete results -/

/-- C1 (counterexample): the database holds both surface forms
"Karlovy Vary" and "Vary", and the utterance — two adjacent occurrences
of "Karlovy Vary", so every "Vary" token lies inside an occurrence of the
longer form — contains "Karlovy Vary"; yet after the forward pass the
substitution record's entry carries the surface form "Vary": the
one-occurrence-only replacement leaves the second "Karlovy Vary" intact
and the scan then matches "Vary" standalone inside it, refuting the claim
that "Vary" is never matched standalone within "Karlovy Vary". -/
theorem c1_longest_match_counterexample :
    (["Karlovy", "Vary"], [("CITY", ["KV"])]) ∈ form_upnames_vals cldbKV ∧
    (["Vary"], [("CITY", ["KV"])]) ∈ form_upnames_vals cldbKV ∧
    containsPhrase uttKV2 ["Karlovy", "Vary"] = true ∧
    uttKV2 = ["Karlovy", "Vary"] ++ ["Karlovy", "Vary"] ∧
    values2category_labels_in_utterance cldbKV uttKV2 =
      .ok (["CITY", "Karlovy", "CITY"], [("CITY", ("KV", ["Vary"]))]) :=
  ⟨by decide, by decide, by decide, by decide, by rfl⟩

/-- C1 (witness): a database with both "Karlovy Vary" and "Vary" and an
utterance with a single, collision-free occurrence of "Karlovy Vary";
only the longer form ends up in the record. -/
theorem c1_longest_match_witness :
    ∃ u', values2category_labels_in_utterance cldbKV ["i", "to", "Karlovy", "Vary"] =
      .ok (u', [("CITY", ("KV", ["Karlovy", "Vary"]))]) :=
  c1_longest_match_amended.2 cldbKV ["i", "to", "Karlovy", "Vary"] "CITY" "KV" [] []
    [("CITY", ["KV"])] (by decide) (by decide) (by decide) (by decide) (by decide)
    (by decide) (by decide) (by decide)

/-- C2 (counterexample): the database has the single surface form "Praha"
(canonical value "Prague"), so no two surface-form occurrences can
overlap; on the utterance `["Prague", "Praha"]` the forward pass relabels
the wrong token (the two-step surface→value→label rewrite hits the
pre-existing "Prague"), and backward substitution returns
`["Praha", "Prague"]`, not the original utterance. -/
theorem c2_round_trip_counterexample :
    (form_upnames_vals cldbPraha).map (fun e => e.1) = [["Praha"]] ∧
    values2category_labels_in_utterance cldbPraha ["Prague", "Praha"] =
      .ok (["CITY", "Prague"], [("CITY", ("Prague", ["Praha"]))]) ∧
    category_labels2values_in_utterance ["CITY", "Prague"]
      [("CITY", ("Prague", ["Praha"]))] = ["Praha", "Prague"] ∧
    (["Praha", "Prague"] : List String) ≠ ["Prague", "Praha"] :=
  ⟨by decide, by rfl, by decide, by decide⟩

/-- C2 (witness): the spec's own example — database
`{CITY: Prague ↦ {"Praha"}}`, utterance `["i", "go", "to", "Praha"]` —
satisfies the amended hypotheses and round-trips exactly. -/
theorem c2_round_trip_witness :
    ∃ u', values2category_labels_in_utterance cldbPraha ["i", "go", "to", "Praha"] =
      .ok (u', [("CITY", ("Prague", ["Praha"]))]) ∧
      category_labels2values_in_utterance u' [("CITY", ("Prague", ["Praha"]))] =
        ["i", "go", "to", "Praha"] :=
  c2_round_trip_amended cldbPraha ["i", "go", "to", "Praha"]
    (show (form_upnames_vals cldbPraha).filter
        (fun e => containsPhrase ["i", "go", "to", "Praha"] e.1) =
      [(["Praha"], [("CITY", ["Prague"])])] by decide)
    (by decide) (by decide) (by decide)

/-- C3 (code bug): `load` on an already-loaded database appends the new
triples to the old `synonym_value_category` list instead of rebuilding it
(`gen_synonym_value_category` never clears the list), so after loading
`srcName` over `srcCity` the record `(["Praha"], "Prague", "city")` of the
first source is still visible, and the rebuilt grouped index still lists
the stale surface form "Praha". -/
theorem c3_reload_stale :
    ((CategoryLabelDatabase.empty.load srcCity).load srcName).synonym_value_category =
      [(["Praha"], "Prague", "city"), (["Pepa"], "Pepa", "name")] ∧
    (["Praha"], "Prague", "city") ∈
      ((CategoryLabelDatabase.empty.load srcCity).load srcName).synonym_value_category ∧
    (form_upnames_vals ((CategoryLabelDatabase.empty.load srcCity).load srcName)).map
      (fun e => e.1) = [["Praha"], ["Pepa"]] :=
  ⟨by decide, by decide, by decide⟩

/-- C4 (counterexample): `text_normalisation` lower-cases the caller's
utterance object in place (`utterance.lower()` with the result
discarded), so after the call the input object `["UHM"]` reads
`["uhm"]` — the input representation is mutated. -/
theorem c4_no_mutation_counterexample :
    (text_normalisation ["UHM"]).2 = ["uhm"] ∧
    (["uhm"] : List String) ≠ ["UHM"] :=
  ⟨by decide, by decide⟩

/-- C4 (witness): an already-lower-case input is left unchanged by the
in-place lower-casing. -/
theorem c4_no_mutation_witness :
    (text_normalisation ["ahoj"]).2 = ["ahoj"] :=
  c4_no_mutation_amended.2.1 ["ahoj"] (by decide)

/-- C5 (counterexample): the first match of slot `city` in a forward
n-best-list pass is labelled `CITY-0` — the instance index is appended
even though no other surface of the slot was matched before — and no bare
label `CITY` exists in the record, refuting the claim that the first
match of a slot receives the bare slot name. -/
theorem c5_label_shape_counterexample :
    values2category_labels_in_uttnblist (α := Nat) cldbPraha [(1, ["Praha"])] =
      .ok ([(1, ["CITY-0"])], [("CITY-0", ("Prague", ["Praha"]))]) ∧
    lookupAssoc [("CITY-0", ("Prague", ["Praha"]))] "CITY" = none :=
  ⟨by rfl, by decide⟩

/-- C5 (witness): in the utterance pass the record key is the bare
upper-cased slot name of a synonym record. -/
theorem c5_label_shape_witness :
    ∃ t ∈ cldbPraha.synonym_value_category,
      (("CITY", ("Prague", ["Praha"])) : String × (String × List String)).1 =
        upperStr t.2.2 :=
  c5_label_shape_amended.1 cldbPraha ["i", "go", "to", "Praha"] ["i", "go", "to", "CITY"]
    [("CITY", ("Prague", ["Praha"]))] (by rfl) ("CITY", ("Prague", ["Praha"])) (by decide)

/-- C6 (code bug): on the database
`{'f1': {'x': ['a b c']}, 'g': {'y': ['F1 d']}}` and the utterance
`['a', 'b', 'c', 'd']`, replacing `a b c` by its value and label creates
a fresh occurrence of the later-scanned surface `F1 d`; the accumulated
substituted-token count reaches 5 > 4 and the scan's internal
`assert substituted_len == utt_len` fails. -/
theorem c6_coverage_assert_fails :
    values2category_labels_in_utterance cldbAssert ["a", "b", "c", "d"] =
      .error .assertionError := by rfl

/-- C7 (witness): the spec's fallback example — annotation item
`(slot=city, value=Prague)` with an utterance containing no city
mention — is still labelled `CITY` through the database lookup. -/
theorem c7_da_alignment_witness :
    values2category_labels_in_da cldbPraha ["hello"] [⟨"city", "Prague"⟩] =
      .ok (["hello"], [⟨"city", "CITY"⟩], []) ∧
    ([⟨"city", "CITY"⟩] : List DialogueActItem) =
      [(⟨"city", "Prague"⟩ : DialogueActItem)].map
        (daiSubst cldbPraha (cl_for_value [])) := by
  have h : values2category_labels_in_da cldbPraha ["hello"] [⟨"city", "Prague"⟩] =
      .ok (["hello"], [⟨"city", "CITY"⟩], []) := by rfl
  exact ⟨h, (c7_da_alignment cldbPraha ["hello"] _ _ _ _ h).2.1⟩

/-- C8 (counterexample): the category label `CITY` is present in the
record and occurs twice in the utterance, but backward substitution
replaces only the first occurrence — the label still occurs in the
output, refuting "replaces every occurrence". -/
theorem c8_backward_counterexample :
    category_labels2values_in_utterance ["CITY", "CITY"]
      [("CITY", ("Prague", ["Praha"]))] = ["Praha", "CITY"] ∧
    "CITY" ∈ category_labels2values_in_utterance ["CITY", "CITY"]
      [("CITY", ("Prague", ["Praha"]))] :=
  ⟨by decide, by decide⟩

/-- C8 (witness): backward substitution restores the first occurrence of
a recorded label to the recorded surface tokens. -/
theorem c8_backward_witness :
    category_labels2values_in_utterance (["i"] ++ "CITY" :: ["go"])
      [("CITY", ("Prague", ["Karlovy", "Vary"]))] =
      ["i"] ++ ["Karlovy", "Vary"] ++ ["go"] :=
  c8_backward_amended.1 ["i"] ["go"] "CITY" "Prague" ["Karlovy", "Vary"] (by decide)

/-- C9 (counterexample): the source `{'city': {'Prague': 'Praha'}}` lacks
the required two-level mapping shape (a phrase string stands in place of
the phrase list), yet `load` succeeds — it silently consumes the string
character by character — instead of failing with a configuration
error. -/
theorem c9_config_error_counterexample :
    hasRequiredShape srcStrPhrases = false ∧
    loadPy (some srcStrPhrases) = .ok [(.str "city",
      [(.str "Prague", .list [.list [.str "P"], .list [.str "r"], .list [.str "a"],
        .list [.str "h"], .list [.str "a"]])])] :=
  ⟨by rfl, by rfl⟩

/-- C9 (witness): a dynamic error of the normalisation traversal is never
the configuration error. -/
theorem c9_config_error_witness :
    PyExc.isConfigError (.typeError "string indices must be integers") = false :=
  c9_config_error_amended.2.1 srcStrSlot (.typeError "string indices must be integers")
    (by rfl)

/-- C10 (code bug): when the two-token surface "Karlovy Vary" is present
in the confusion network, the rewrite raises; the handler then evaluates
`print "(EE) " + ex`, and in Python 2 concatenating a `str` with an
exception object itself raises `TypeError`, so the call propagates an
exception instead of printing and returning a (confnet, record) pair. -/
theorem c10_confnet_handler_raises :
    values2category_labels_in_confnet cldbConf [["Karlovy"], ["Vary"]] =
      .error (.typeError "cannot concatenate str and exception objects") := by rfl
